import Mathlib

/-!
Verification development for the context-aggregator package.

The TypeScript sources (loading strategies, relevance scorer, content
optimizer) are shallowly embedded as executable Lean functions.  Text is
modelled as `List Char` (so that every operation reduces inside the kernel),
JavaScript numbers as `Nat`/`Int`/`ℚ` with explicit rounding, a JavaScript
`Map` as an insertion-ordered association list with overwrite-in-place
semantics, and the file-system adapter as an explicit lookup structure.
JavaScript divisions that can produce NaN/Infinity are modelled as `Option ℚ`
(`none` = non-finite).  Regular expressions used by the sources are modelled
by dedicated scanners, each annotated with the regex it implements.
-/

unseal Rat.mul Rat.inv Rat.add Rat.sub Rat.ofScientific

/-- Character strings, modelled as lists of characters so that all operations
compute by kernel reduction. -/
abbrev Str := List Char

/-- Literal conversion helper. -/
def str (s : String) : Str := s.toList

namespace JsStr

/-- JavaScript whitespace (`\s`), restricted to the ASCII space classes that
occur in the repository's data. -/
def isWs (c : Char) : Bool := c = ' ' || c = '\t' || c = '\n' || c = '\r'

/-- Lower-casing, as `String.prototype.toLowerCase` on ASCII data. -/
def lower (s : Str) : Str := s.map Char.toLower

/-- `text.includes(pat)`. -/
def containsSub (pat : Str) : Str → Bool
  | [] => pat.isEmpty
  | c :: rest => pat.isPrefixOf (c :: rest) || containsSub pat rest

/-- First occurrence search: returns `(before, after)` around the first
occurrence of `pat`, or `none`. -/
def splitFirst (pat : Str) : Str → Option (Str × Str)
  | [] => if pat.isEmpty then some ([], []) else none
  | c :: rest =>
    if pat.isPrefixOf (c :: rest) then some ([], (c :: rest).drop pat.length)
    else
      match splitFirst pat rest with
      | some (b, a) => some (c :: b, a)
      | none => none

/-- `s.split('\n')` (always returns at least one piece). -/
def splitOnNl : Str → List Str
  | [] => [[]]
  | c :: rest =>
    match splitOnNl rest with
    | [] => [[]]
    | l :: ls => if c = '\n' then [] :: l :: ls else (c :: l) :: ls

/-- `lines.join('\n')`. -/
def joinNl : List Str → Str
  | [] => []
  | [l] => l
  | l :: ls => l ++ '\n' :: joinNl ls

/-- `String.prototype.trim`. -/
def trim (s : Str) : Str := ((s.dropWhile isWs).reverse.dropWhile isWs).reverse

/-- `Math.ceil (a / b)` for non-negative integers. -/
def ceilDiv (a b : Nat) : Nat := (a + b - 1) / b

/-- `a || d` on an optional JavaScript number (`0` and `undefined` are falsy). -/
def jsOrNat (o : Option Nat) (d : Nat) : Nat :=
  match o with
  | some n => if n = 0 then d else n
  | none => d

/-- Truthiness of `xs?.length` for an optional array. -/
def jsLenTruthy (o : Option (List α)) : Bool :=
  match o with
  | some xs => !xs.isEmpty
  | none => false

/-- JavaScript division producing `none` for the non-finite results
(`x / 0` is `Infinity` or `NaN`). -/
def jsDiv (a b : ℚ) : Option ℚ := if b = 0 then none else some (a / b)

/-- `words.join(sep)` for a general separator. -/
def joinWith (sep : Str) : List Str → Str
  | [] => []
  | [l] => l
  | l :: ls => l ++ sep ++ joinWith sep ls

end JsStr

open JsStr

/-- Stable insert for a descending sort by key: the new element `x` (which
comes earlier in the input) is placed before the first element whose key is
not larger, so equal-key elements keep their input order. -/
def insertByDesc (key : α → β) [LinearOrder β] (x : α) : List α → List α
  | [] => [x]
  | y :: ys => if key y ≤ key x then x :: y :: ys else y :: insertByDesc key x ys

/-- Stable descending sort by key; models `Array.prototype.sort` with the
comparator `(a, b) => key b - key a` (ECMAScript sort is stable, and a stable
sort for a total comparator has a unique result). -/
def sortByDesc (key : α → β) [LinearOrder β] : List α → List α
  | [] => []
  | x :: xs => insertByDesc key x (sortByDesc key xs)

namespace ContextOptimizer

/-- `AVERAGE_CHARS_PER_TOKEN` constant of `ContextOptimizer`. -/
def AVERAGE_CHARS_PER_TOKEN : Nat := 4

/-- `DEFAULT_MAX_TOKENS` constant of `ContextOptimizer`. -/
def DEFAULT_MAX_TOKENS : Nat := 8000

/-- Characters of the class in `/[_${}()[\]<>]/` (isCodeToken). -/
def codeTokenChars : List Char :=
  ['_', '$', Char.ofNat 123, Char.ofNat 125, '(', ')', '[', ']', '<', '>']

/-- `/^[A-Z_]+$/` on a word. -/
def isAllCaps (w : Str) : Bool :=
  !w.isEmpty && w.all (fun c => ('A' ≤ c && c ≤ 'Z') || c = '_')

/-- `isCodeToken`: `/[_${}()[\]<>]/.test(word) || /^[A-Z_]+$/.test(word)`. -/
def isCodeToken (w : Str) : Bool :=
  w.any (fun c => codeTokenChars.contains c) || isAllCaps w

/-- Maximal runs of non-whitespace characters: the non-empty pieces of
`content.split(/[\s\n]+/)` (empty pieces are skipped by the source loop). -/
def wordsGo (cur : Str) : Str → List Str
  | [] => if cur.isEmpty then [] else [cur.reverse]
  | c :: rest =>
    if isWs c then
      if cur.isEmpty then wordsGo [] rest else cur.reverse :: wordsGo [] rest
    else wordsGo (c :: cur) rest

/-- See `wordsGo`. -/
def wordsOf (s : Str) : List Str := wordsGo [] s

/-- Characters of the punctuation class `/[.,;:!?()[\]{}"'`]/`
(braces, double quote, single quote and backtick written via `Char.ofNat`). -/
def punctChars : List Char :=
  ['.', ',', ';', ':', '!', '?', '(', ')', '[', ']',
   Char.ofNat 123, Char.ofNat 125, Char.ofNat 34, Char.ofNat 39, Char.ofNat 96]

/-- Per-word token cost of `estimateTokenCount`. -/
def wordCost (w : Str) : Nat :=
  if isCodeToken w then ceilDiv w.length 3
  else if w.length ≤ 4 then 1
  else ceilDiv w.length AVERAGE_CHARS_PER_TOKEN

/-- `estimateTokenCount` (the precise estimator): word costs plus
`Math.ceil(punctuationCount * 0.3)`, the latter idealised as `⌈3·p/10⌉`. -/
def estimateTokenCount (content : Str) : Nat :=
  (wordsOf content).foldl (fun acc w => acc + wordCost w) 0
    + ceilDiv (3 * (content.filter (fun c => punctChars.contains c)).length) 10

/-- `/^#{1,n}\s/`: a run of 1 to `n` hashes at the start, followed by a
whitespace character. -/
def hashWs (n : Nat) (s : Str) : Bool :=
  let hashes := s.takeWhile (· = '#')
  1 ≤ hashes.length && hashes.length ≤ n &&
    (match s.drop hashes.length with
     | c :: _ => isWs c
     | [] => false)

/-- `isSectionMarker`: `/^#{1,6}\s/ || /^={3,}$/ || /^-{3,}$/`. -/
def isSectionMarker (line : Str) : Bool :=
  hashWs 6 line || (line.length ≥ 3 && line.all (· = '=')) ||
    (line.length ≥ 3 && line.all (· = '-'))

/-- `isCodeBlock`: `content.includes('```') || /^\s{4,}/.test(content)`. -/
def isCodeBlock (content : Str) : Bool :=
  containsSub (str "```") content ||
    (content.length ≥ 4 && (content.take 4).all isWs)

/-- `isComment`: `/^(\s*\/\/|\s*\/\*|\s*#)/` — after the leading whitespace
comes one of the comment openers. -/
def isComment (content : Str) : Bool :=
  let t := content.dropWhile isWs
  (str "//").isPrefixOf t || (str "/*").isPrefixOf t || (str "#").isPrefixOf t

/-- `isDocumentation`: `/^(\s*\*\s|#{1,6}\s|>\s)/`. -/
def isDocumentation (content : Str) : Bool :=
  (match content.dropWhile isWs with
   | '*' :: c :: _ => isWs c
   | _ => false)
  || hashWs 6 content
  || (match content with
      | '>' :: c :: _ => isWs c
      | _ => false)

/-- One step of `splitIntoSections`: walk the lines carrying the current
section text and the fenced-code-block flag (toggled before the marker test,
exactly as in the source). -/
def secGo : List Str → Str → Bool → List Str
  | [], cur, _ => if (trim cur).isEmpty then [] else [trim cur]
  | line :: rest, cur, inCode =>
    let inCode' := if (str "```").isPrefixOf line then !inCode else inCode
    if !inCode' && isSectionMarker line then
      (if (trim cur).isEmpty then [] else [trim cur]) ++ secGo rest line inCode'
    else secGo rest (cur ++ (if cur.isEmpty then [] else ['\n']) ++ line) inCode'

/-- `splitIntoSections`. -/
def splitIntoSections (content : Str) : List Str :=
  secGo (splitOnNl content) [] false

/-- Search for `pat` immediately followed by a whitespace character, anywhere
in the text (models the unanchored regex `pat\s`). -/
def containsSubWs (pat : Str) : Str → Bool
  | [] => false
  | c :: rest =>
    (pat.isPrefixOf (c :: rest) &&
      (match (c :: rest).drop pat.length with
       | d :: _ => isWs d
       | [] => false)) || containsSubWs pat rest

/-- Word-constituent characters (`\w`). -/
def isWordChar (c : Char) : Bool :=
  ('a' ≤ c && c ≤ 'z') || ('A' ≤ c && c ≤ 'Z') || ('0' ≤ c && c ≤ '9') || c = '_'

/-- Search for `pat` preceded by a word boundary and followed by whitespace
(models the unanchored regex `\bpat\s`); `prevWord` records whether the
previous character was a word character. -/
def containsBoundaryWs (pat : Str) (prevWord : Bool) : Str → Bool
  | [] => false
  | c :: rest =>
    (!prevWord && pat.isPrefixOf (c :: rest) &&
      (match (c :: rest).drop pat.length with
       | d :: _ => isWs d
       | [] => false)) || containsBoundaryWs pat (isWordChar c) rest

/-- Search, within the current line only (no `'\n'` crossing), for `pat`
optionally followed by a whitespace/specific ending; models the `.*pat`
tail of a regex alternative. `mode`: 0 = pat then whitespace, 1 = bare pat. -/
def lineSearch (pat : Str) (mode : Nat) : Str → Bool
  | [] => false
  | c :: rest =>
    if c = '\n' then false
    else
      (pat.isPrefixOf (c :: rest) &&
        (mode = 1 ||
          (match (c :: rest).drop pat.length with
           | d :: _ => isWs d
           | [] => false))) || lineSearch pat mode rest

/-- Search for `kw` (at a word boundary when `bound`), then a whitespace
character, then — still on the same line (`.`) — a success of
`lineSearch pat mode`; models regexes of shape `\bkw\s.*pat`. -/
def kwThenLine (kw : Str) (bound : Bool) (pat : Str) (mode : Nat)
    (prevWord : Bool) : Str → Bool
  | [] => false
  | c :: rest =>
    ((!bound || !prevWord) && kw.isPrefixOf (c :: rest) &&
      (match (c :: rest).drop kw.length with
       | d :: tail => isWs d && lineSearch pat mode tail
       | [] => false)) || kwThenLine kw bound pat mode (isWordChar c) rest

/-- Search, within the current line only, for a literal `'='` followed by a
whitespace character followed - still within the line that starts after that
character - by the bare word `require`; models the `.*=\s.*require` tail of
the `javascript` alternative. -/
def lineSearchEqRequire : Str → Bool
  | [] => false
  | c :: rest =>
    if c = '\n' then false
    else
      (c = '=' &&
        (match rest with
         | d :: tail => isWs d && lineSearch (str "require") 1 tail
         | [] => false)) || lineSearchEqRequire rest

/-- Search for `const`, then a whitespace character, then a same-line success
of `lineSearchEqRequire`; models the `javascript` alternative
`const\s.*=\s.*require`. -/
def constEqRequire : Str → Bool
  | [] => false
  | c :: rest =>
    ((str "const").isPrefixOf (c :: rest) &&
      (match (c :: rest).drop (str "const").length with
       | d :: tail => isWs d && lineSearchEqRequire tail
       | [] => false)) || constEqRequire rest

/-- Search for `kw` followed by whitespace, then `.*` up to a literal `'\n'`
(models `import\s.*\n`). -/
def kwThenNl (kw : Str) (prevWord : Bool) : Str → Bool
  | [] => false
  | c :: rest =>
    (kw.isPrefixOf (c :: rest) &&
      (match (c :: rest).drop kw.length with
       | d :: tail => isWs d && tail.contains '\n'
       | [] => false)) || kwThenNl kw prevWord rest

/-- `/```(\w+)/`: first position where a fence is immediately followed by at
least one word character; returns the captured language. -/
def findFenceLang : Str → Option Str
  | [] => none
  | c :: rest =>
    if (str "```").isPrefixOf (c :: rest) then
      let w := ((c :: rest).drop 3).takeWhile isWordChar
      if w.isEmpty then findFenceLang rest else some w
    else findFenceLang rest

/-- `/:\s*(string|number|boolean)/`: a colon, optional whitespace, then one of
the type words. -/
def colonTypeWord : Str → Bool
  | [] => false
  | c :: rest =>
    (c = ':' &&
      (let t := rest.dropWhile isWs
       (str "string").isPrefixOf t || (str "number").isPrefixOf t ||
         (str "boolean").isPrefixOf t)) || colonTypeWord rest

/-- Helper for the `javascript` alternative `\bimport\s.*from\s`. -/
def lineSearchAfterImportFrom (content : Str) : Bool :=
  kwThenLine (str "import") true (str "from") 0 false content

/-- `detectLanguage`. -/
def detectLanguage (content : Str) : Str :=
  match findFenceLang content with
  | some lang => lang
  | none =>
    if containsBoundaryWs (str "import") false content &&
         lineSearchAfterImportFrom content ||
       containsSubWs (str "export") content ||
       constEqRequire content then
      str "javascript"
    else if containsBoundaryWs (str "interface") false content ||
              kwThenLine (str "type") false (str "=") 1 false content ||
              colonTypeWord content then
      str "typescript"
    else if containsBoundaryWs (str "def") false content ||
              kwThenNl (str "import") false content ||
              kwThenLine (str "from") false (str "import") 1 false content then
      str "python"
    else if containsBoundaryWs (str "package") false content ||
              containsSubWs (str "func") content ||
              kwThenLine (str "var") false (str "string") 1 false content then
      str "go"
    else str "unknown"

/-- `/kw\s+(\w+)/`-style capture: find `kw`, at least one whitespace, then
capture a non-empty word (with an optional trailing `\s*=` requirement for
the `const` pattern, selected by `eq`). -/
def kwCapture (kw : Str) (eq : Bool) : Str → Option Str
  | [] => none
  | c :: rest =>
    let tryHere : Option Str :=
      if kw.isPrefixOf (c :: rest) then
        let afterKw := (c :: rest).drop kw.length
        match afterKw with
        | d :: tail =>
          if isWs d then
            let w := (tail.dropWhile isWs).takeWhile isWordChar
            if w.isEmpty then none
            else if eq then
              match ((tail.dropWhile isWs).drop w.length).dropWhile isWs with
              | '=' :: _ => some w
              | _ => none
            else some w
          else none
        | [] => none
      else none
    match tryHere with
    | some w => some w
    | none => kwCapture kw eq rest

/-- `extractFunctionName`: the five capture patterns tried in order. -/
def extractFunctionName (content : Str) : Option Str :=
  match kwCapture (str "function") false content with
  | some w => some w
  | none =>
    match kwCapture (str "const") true content with
    | some w => some w
    | none =>
      match kwCapture (str "class") false content with
      | some w => some w
      | none =>
        match kwCapture (str "def") false content with
        | some w => some w
        | none => kwCapture (str "func") false content

/-- Case-insensitive substring test. -/
def containsCI (pat : Str) (s : Str) : Bool := containsSub (lower pat) (lower s)

/-- `/export\s+(interface|class|function|const)/i`: `export`, at least one
whitespace, then one of the keywords (case-insensitively). -/
def exportDeclGo : Str → Bool
  | [] => false
  | c :: rest =>
    ((str "export").isPrefixOf (c :: rest) &&
      (let after := (c :: rest).drop 6
       match after with
       | d :: _ => isWs d &&
           (let t := after.dropWhile isWs
            (str "interface").isPrefixOf t || (str "class").isPrefixOf t ||
              (str "function").isPrefixOf t || (str "const").isPrefixOf t)
       | [] => false)) || exportDeclGo rest

/-- See `exportDeclGo` (applied to the lower-cased section). -/
def exportDecl (s : Str) : Bool := exportDeclGo (lower s)

/-- `calculateSectionImportance`. -/
def calculateSectionImportance (s : Str) : Int :=
  (if hashWs 3 s then (10 : Int) else 0)
  + (if isCodeBlock s then 8 else 0)
  + (if exportDecl s then 7 else 0)
  + (if containsCI (str "error") s || containsCI (str "exception") s ||
        containsCI (str "throw") s || containsCI (str "catch") s then 5 else 0)
  + (if isDocumentation s then 3 else 0)
  - (if estimateTokenCount s > 500 then 2 else 0)

/-- `calculateRelevanceScore` (selective optimization). -/
def calculateRelevanceScore (s : Str) : Int :=
  max 0 (calculateSectionImportance s
    + (if containsCI (str "main") s || containsCI (str "primary") s ||
          containsCI (str "core") s || containsCI (str "key") s then 5 else 0)
    + (if containsCI (str "public") s || containsCI (str "export") s ||
          containsCI (str "api") s then 4 else 0)
    - (if containsCI (str "test") s || containsCI (str "spec") s ||
          containsCI (str "mock") s then 3 else 0)
    - (if containsCI (str "example") s || containsCI (str "sample") s ||
          containsCI (str "demo") s then 2 else 0))

/-- The non-blank lines of a section (`section.split('\n').filter(trim)`). -/
def nonBlankLines (s : Str) : List Str :=
  (splitOnNl s).filter (fun l => !(trim l).isEmpty)

/-- The `lineCount < 3 || isSectionMarker` accumulation of the regular
summary branch of `summarizeSection`. -/
def summaryLinesGo : List Str → Nat → List Str
  | [], _ => []
  | line :: rest, cnt =>
    if isSectionMarker line || cnt < 3 then line :: summaryLinesGo rest (cnt + 1)
    else summaryLinesGo rest cnt

/-- `summarizeSection` (with the `veryShort` flag). -/
def summarizeSection (s : Str) (veryShort : Bool) : Str :=
  let lines := nonBlankLines s
  if veryShort then
    if isCodeBlock s then
      let firstLine := (lines.find? (fun l => !(str "```").isPrefixOf l)).getD []
      str "[Code block: " ++ firstLine.take 50 ++ str "...]"
    else (lines.headD []).take 100 ++ str "..."
  else
    if isCodeBlock s then
      let language := detectLanguage s
      let functionName := extractFunctionName s
      str "[" ++ language ++ str " code" ++
        (match functionName with
         | some n => str ": " ++ n
         | none => []) ++ str "]"
    else joinNl (summaryLinesGo lines 0)

/-- `result += (result ? '\n\n' : '') + piece`. -/
def jsAppendSep (result piece : Str) : Str :=
  result ++ (if result.isEmpty then [] else str "\n\n") ++ piece

/-- `prioritizeSections`: stable descending sort by importance. -/
def prioritizeSections (sections : List Str) : List Str :=
  sortByDesc calculateSectionImportance sections

/-- The packing loop of `summarizeContent`: append the (regular) summary of
each prioritized section while it fits; at the first summary that does not
fit try the very short summary, append it only if it fits, then stop. -/
def summarizeGo : List Str → Nat → Nat → Str → Str
  | [], _, _, result => result
  | s :: rest, maxTokens, cur, result =>
    let summary := summarizeSection s false
    let summaryTokens := estimateTokenCount summary
    if cur + summaryTokens > maxTokens then
      let shorter := summarizeSection s true
      let shorterTokens := estimateTokenCount shorter
      if cur + shorterTokens ≤ maxTokens then jsAppendSep result shorter else result
    else summarizeGo rest maxTokens (cur + summaryTokens) (jsAppendSep result summary)

/-- `summarizeContent`. -/
def summarizeContent (content : Str) (maxTokens : Nat) : Str :=
  summarizeGo (prioritizeSections (splitIntoSections content)) maxTokens 0 []

/-- A section with its selective-optimization score and token estimate. -/
structure ScoredSection where
  content : Str
  score : Int
  tokens : Nat
deriving DecidableEq

/-- The packing loop of `selectiveOptimization`: skip a section that does not
fit and continue with the next one. -/
def selectivePack : List ScoredSection → Nat → Str → Nat → Str × Nat
  | [], _, result, cur => (result, cur)
  | s :: rest, maxTokens, result, cur =>
    if cur + s.tokens > maxTokens then selectivePack rest maxTokens result cur
    else selectivePack rest maxTokens (jsAppendSep result s.content) (cur + s.tokens)

/-- The scored-section list built by `selectiveOptimization`. -/
def selectiveScored (content : Str) : List ScoredSection :=
  (splitIntoSections content).map (fun s =>
    ⟨s, calculateRelevanceScore s, estimateTokenCount s⟩)

/-- `selectiveOptimization`. -/
def selectiveOptimization (content : Str) (maxTokens : Nat) : Str :=
  (selectivePack (sortByDesc ScoredSection.score (selectiveScored content))
    maxTokens [] 0).1

/-- Emit a (possibly collapsed) newline run: `/\n{3,}/g → '\n\n'`. -/
def emitNl (n : Nat) : Str := List.replicate (min n 2) '\n'

/-- Scanner for `replace(/\n{3,}/g, '\n\n')`; `n` counts pending newlines. -/
def cnGo : Nat → Str → Str
  | n, [] => emitNl n
  | n, c :: rest =>
    if c = '\n' then cnGo (n + 1) rest else emitNl n ++ c :: cnGo 0 rest

/-- `compressed.replace(/\n{3,}/g, '\n\n')`. -/
def collapseNewlines (s : Str) : Str := cnGo 0 s

/-- Space or tab. -/
def isSpTab (c : Char) : Bool := c = ' ' || c = '\t'

/-- Scanner for `replace(/[ \t]+/g, ' ')`; `inRun` marks that the previous
character belonged to a space/tab run. -/
def csGo : Bool → Str → Str
  | _, [] => []
  | inRun, c :: rest =>
    if isSpTab c then
      if inRun then csGo true rest else ' ' :: csGo true rest
    else c :: csGo false rest

/-- `compressed.replace(/[ \t]+/g, ' ')`. -/
def collapseSpaces (s : Str) : Str := csGo false s

/-- First-occurrence line deduplication (`Array.from(new Set(lines))`). -/
def dedupKeepFirst (seen : List Str) : List Str → List Str
  | [] => []
  | l :: ls =>
    if seen.contains l then dedupKeepFirst seen ls
    else l :: dedupKeepFirst (l :: seen) ls

/-- The duplicate-line removal stage of `compressContent`. -/
def dedupeLines (s : Str) : Str := joinNl (dedupKeepFirst [] (splitOnNl s))

/-- `lines.slice(-n)` — JavaScript semantics: `slice(-0)` is `slice(0)` and
returns the whole array. -/
def jsSliceLast (lines : List Str) (n : Nat) : List Str :=
  if n = 0 then lines else lines.drop (lines.length - n)

/-- The per-match transform of the code-block compression: a fenced match of
more than 20 lines keeps the first 10 and last 5 joined by a truncation
marker. -/
def truncateFence (matched : Str) : Str :=
  let lines := splitOnNl matched
  if lines.length > 20 then
    joinNl (lines.take 10) ++ str "\n// ... truncated ...\n" ++
      joinNl (jsSliceLast lines 5)
  else matched

/-- Global replacement for the lazy regex `/```[\s\S]*?```/g`: each match
runs from a fence to the next fence; scanning resumes after the match. -/
def replaceFences : Nat → Str → Str
  | 0, s => s
  | fuel + 1, s =>
    match splitFirst (str "```") s with
    | none => s
    | some (before, afterOpen) =>
      match splitFirst (str "```") afterOpen with
      | none => s
      | some (mid, afterClose) =>
        before ++ truncateFence (str "```" ++ mid ++ str "```") ++
          replaceFences fuel afterClose

/-- The per-match transform of the verbose-comment compression. -/
def truncateComment (matched : Str) : Str :=
  if matched.length > 200 then str "/* ... detailed comment removed ... */"
  else matched

/-- Global replacement for the lazy regex `/\/\*[\s\S]*?\*\//g`. -/
def replaceComments : Nat → Str → Str
  | 0, s => s
  | fuel + 1, s =>
    match splitFirst (str "/*") s with
    | none => s
    | some (before, afterOpen) =>
      match splitFirst (str "*/") afterOpen with
      | none => s
      | some (mid, afterClose) =>
        before ++ truncateComment (str "/*" ++ mid ++ str "*/") ++
          replaceComments fuel afterClose

/-- `compressContent`: the five stages in source order. -/
def compressContent (content : Str) : Str :=
  let s1 := collapseNewlines content
  let s2 := collapseSpaces s1
  let s3 := dedupeLines s2
  let s4 := replaceFences s3.length s3
  replaceComments s4.length s4

/-- `containsCode`:
`/```|^\s{4,}|export\s|import\s|function\s|class\s|const\s|let\s|var\s/`. -/
def containsCode (content : Str) : Bool :=
  containsSub (str "```") content ||
  (content.length ≥ 4 && (content.take 4).all isWs) ||
  containsSubWs (str "export") content || containsSubWs (str "import") content ||
  containsSubWs (str "function") content || containsSubWs (str "class") content ||
  containsSubWs (str "const") content || containsSubWs (str "let") content ||
  containsSubWs (str "var") content

/-- `containsDocumentation`:
`/^#{1,6}\s|^\*\s|^>\s|@param|@returns|@throws/`. -/
def containsDocumentation (content : Str) : Bool :=
  hashWs 6 content ||
  (match content with
   | '*' :: c :: _ => isWs c
   | _ => false) ||
  (match content with
   | '>' :: c :: _ => isWs c
   | _ => false) ||
  containsSub (str "@param") content || containsSub (str "@returns") content ||
  containsSub (str "@throws") content

/-- `ContextChunk` (metadata fields inlined). -/
structure ContextChunk where
  content : Str
  index : Nat
  tokenCount : Nat
  hasCode : Bool
  hasDocumentation : Bool
  language : Str
deriving DecidableEq

/-- `createChunk`. -/
def createChunk (content : Str) (index : Nat) : ContextChunk :=
  ⟨content, index, estimateTokenCount content, containsCode content,
   containsDocumentation content, detectLanguage content⟩

/-- `splitLargeSection`: split one oversized section at line granularity. -/
def splitLargeGo : List Str → Nat → Str → Nat → List Str
  | [], _, cur, _ => if cur.isEmpty then [] else [cur]
  | line :: rest, maxTokens, cur, curTok =>
    let lineTokens := estimateTokenCount line
    if curTok + lineTokens > maxTokens && !cur.isEmpty then
      cur :: splitLargeGo rest maxTokens line lineTokens
    else splitLargeGo rest maxTokens
      (cur ++ (if cur.isEmpty then [] else ['\n']) ++ line) (curTok + lineTokens)

/-- `splitLargeSection`. -/
def splitLargeSection (s : Str) (maxTokens : Nat) : List Str :=
  splitLargeGo (splitOnNl s) maxTokens [] 0

/-- Number chunk contents starting at `idx`. -/
def numberChunks (idx : Nat) : List Str → List ContextChunk
  | [] => []
  | c :: cs => createChunk c idx :: numberChunks (idx + 1) cs

/-- The section-packing loop of `chunkContext`. -/
def chunkGo : List Str → Nat → Str → Nat → Nat → List ContextChunk
  | [], _, cur, _, idx => if cur.isEmpty then [] else [createChunk cur idx]
  | s :: rest, chunkSize, cur, curTok, idx =>
    let sectionTokens := estimateTokenCount s
    if sectionTokens > chunkSize then
      let fin : List ContextChunk × Nat :=
        if cur.isEmpty then ([], idx) else ([createChunk cur idx], idx + 1)
      let subs := splitLargeSection s chunkSize
      fin.1 ++ numberChunks fin.2 subs ++
        chunkGo rest chunkSize [] 0 (fin.2 + subs.length)
    else if curTok + sectionTokens > chunkSize then
      createChunk cur idx :: chunkGo rest chunkSize s sectionTokens (idx + 1)
    else chunkGo rest chunkSize
      (cur ++ (if cur.isEmpty then [] else str "\n\n") ++ s)
      (curTok + sectionTokens) idx

/-- `addChunkOverlap`: each chunk contributes
`lines.slice(-Math.min(5, Math.floor(lines.length * 0.1)))` as a prefix of
the next chunk, whose token count is then recomputed.  Note the JavaScript
`slice(-0)` behaviour is preserved by `jsSliceLast`. -/
def overlapGo : ContextChunk → List ContextChunk → List ContextChunk
  | prev, [] => [prev]
  | prev, c2 :: rest =>
    let currentLines := splitOnNl prev.content
    let overlapLines := min 5 (currentLines.length / 10)
    let overlap := joinNl (jsSliceLast currentLines overlapLines)
    let newContent := overlap ++ str "\n\n" ++ c2.content
    prev :: overlapGo
      { c2 with content := newContent,
                tokenCount := estimateTokenCount newContent } rest

/-- See `overlapGo`. -/
def addChunkOverlap : List ContextChunk → List ContextChunk
  | [] => []
  | c :: cs => overlapGo c cs

/-- `chunkContext`. -/
def chunkContext (content : Str) (maxChunkSize : Option Nat) : List ContextChunk :=
  let chunkSize := jsOrNat maxChunkSize 2000
  addChunkOverlap (chunkGo (splitIntoSections content) chunkSize [] 0 0)

/-- `TokenInfo`, with the category percentages as JavaScript numbers that may
be NaN (`none`). -/
structure TokenInfo where
  totalTokens : Nat
  codePct : Option ℚ
  commentsPct : Option ℚ
  documentationPct : Option ℚ
  whitespacePct : Option ℚ
  otherPct : Option ℚ
  estimatedCost : ℚ
  withinLimit : Bool
deriving DecidableEq

/-- Per-section category of `getTokenInfo` (0 = code, 1 = comments,
2 = documentation, 3 = whitespace, 4 = other), in source test order. -/
def sectionCategory (s : Str) : Nat :=
  if isCodeBlock s then 0
  else if isComment s then 1
  else if isDocumentation s then 2
  else if (trim s).isEmpty then 3
  else 4

/-- Sum of estimated tokens of the sections in category `cat`. -/
def categoryTokens (sections : List Str) (cat : Nat) : Nat :=
  (sections.filter (fun s => sectionCategory s = cat)).foldl
    (fun acc s => acc + estimateTokenCount s) 0

/-- `estimateCost`: `(tokens / 1000) * 0.01`. -/
def estimateCost (tokens : Nat) : ℚ := ((tokens : ℚ) / 1000) * (1 / 100)

/-- One percentage entry: `(value / tokens) * 100` (NaN/Infinity as `none`). -/
def pct (value tokens : Nat) : Option ℚ :=
  (jsDiv (value : ℚ) (tokens : ℚ)).map (· * 100)

/-- `getTokenInfo`. -/
def getTokenInfo (content : Str) : TokenInfo :=
  let tokens := estimateTokenCount content
  let sections := splitIntoSections content
  { totalTokens := tokens
    codePct := pct (categoryTokens sections 0) tokens
    commentsPct := pct (categoryTokens sections 1) tokens
    documentationPct := pct (categoryTokens sections 2) tokens
    whitespacePct := pct (categoryTokens sections 3) tokens
    otherPct := pct (categoryTokens sections 4) tokens
    estimatedCost := estimateCost tokens
    withinLimit := tokens ≤ DEFAULT_MAX_TOKENS }

end ContextOptimizer

/-- A `getStats` result. -/
structure FSStat where
  size : Nat
  modifiedAt : Int
  isDirectory : Bool
  isFile : Bool
deriving DecidableEq

/-- A file-system snapshot: the external `IFileSystem` collaborator, with a
lookup map per primitive (`none` models the operation throwing). -/
structure FS where
  files : List (Str × Str)
  dirs : List (Str × List Str)
  stats : List (Str × FSStat)

/-- `fileSystem.readFile` (a `none` result models a thrown error). -/
def FS.readFile (fs : FS) (p : Str) : Option Str := fs.files.lookup p

/-- `fileSystem.listDirectory`. -/
def FS.listDir (fs : FS) (p : Str) : Option (List Str) := fs.dirs.lookup p

/-- `fileSystem.getStats`. -/
def FS.statsOf (fs : FS) (p : Str) : Option FSStat := fs.stats.lookup p

/-- `fileSystem.exists`. -/
def FS.pathExists (fs : FS) (p : Str) : Bool :=
  (fs.readFile p).isSome || (fs.listDir p).isSome

/-- `fileSystem.isFile`. -/
def FS.isFileP (fs : FS) (p : Str) : Option Bool := (fs.statsOf p).map (·.isFile)

/-- `fileSystem.isDirectory`. -/
def FS.isDirP (fs : FS) (p : Str) : Option Bool :=
  (fs.statsOf p).map (·.isDirectory)

/-- `path.join(a, b)`. -/
def pathJoin (a b : Str) : Str := a ++ '/' :: b

/-- `path.relative(root, p)` for the shapes produced by the walks (full paths
built by joining below `root`). -/
def pathRelative (root p : Str) : Str :=
  if (root ++ ['/']).isPrefixOf p then p.drop (root.length + 1) else p

/-- Generic single-character split (like `splitOnNl` for other separators). -/
def splitOnC (sep : Char) : Str → List Str
  | [] => [[]]
  | c :: rest =>
    match splitOnC sep rest with
    | [] => [[]]
    | l :: ls => if c = sep then [] :: l :: ls else (c :: l) :: ls

/-- `path.basename`. -/
def pathBasename (p : Str) : Str :=
  match (splitOnC '/' p).getLast? with
  | some b => b
  | none => p

/-- `path.extname`. -/
def pathExtname (p : Str) : Str :=
  let b := pathBasename p
  let afterRev := b.reverse.takeWhile (· ≠ '.')
  if afterRev.length = b.length then []
  else if afterRev.length + 1 = b.length then []
  else b.drop (b.length - (afterRev.length + 1))

/-- `path.parse(filename).name`: the basename without its extension. -/
def parseNameNoExt (filename : Str) : Str :=
  let b := pathBasename filename
  b.take (b.length - (pathExtname filename).length)

/-- Tokens of the regexes produced by the glob-to-regex translations. -/
inductive GTok where
  | lit (c : Char)
  | anyChar
  | starNonSlash
  | starAny
  | cls (neg : Bool) (cs : List Char)
deriving DecidableEq

/-- Backtracking matcher for a token list against a prefix of the text
(trailing text is ignored, so `gTest` below gives the unanchored
`RegExp.test` semantics); case-insensitive (`'i'` flag).  `fuel` makes the
recursion structural; it is always called with enough fuel. -/
def gMatchGo : Nat → List GTok → Str → Bool
  | 0, _, _ => false
  | _ + 1, [], _ => true
  | _ + 1, GTok.lit c :: ts, x :: xs =>
    x.toLower = c.toLower && gMatchGo (ts.length + xs.length + 1) ts xs
  | _ + 1, GTok.anyChar :: ts, x :: xs =>
    x ≠ '\n' && gMatchGo (ts.length + xs.length + 1) ts xs
  | _ + 1, GTok.cls neg cs :: ts, x :: xs =>
    (if neg then !(cs.map Char.toLower).contains x.toLower
     else (cs.map Char.toLower).contains x.toLower) &&
      gMatchGo (ts.length + xs.length + 1) ts xs
  | fuel + 1, GTok.starNonSlash :: ts, xs =>
    gMatchGo fuel ts xs ||
      (match xs with
       | x :: xs' =>
         x ≠ '/' && gMatchGo fuel (GTok.starNonSlash :: ts) xs'
       | [] => false)
  | fuel + 1, GTok.starAny :: ts, xs =>
    gMatchGo fuel ts xs ||
      (match xs with
       | x :: xs' => x ≠ '\n' && gMatchGo fuel (GTok.starAny :: ts) xs'
       | [] => false)
  | _ + 1, _ :: _, [] => false

/-- Match the token list starting exactly at the beginning of `s`. -/
def gMatch (toks : List GTok) (s : Str) : Bool :=
  gMatchGo (toks.length + s.length + 1) toks s

/-- Unanchored `RegExp.prototype.test`. -/
def gTest (toks : List GTok) : Str → Bool
  | [] => gMatch toks []
  | c :: rest => gMatch toks (c :: rest) || gTest toks rest

/-- Glob translation used by `RelevanceScorer.matchesPattern`:
`* → .*`, `? → .`, `[!..] → [^..]`; an unescaped `'.'` in the pattern is the
regex wildcard.  `fuel` for the character-class jump. -/
def globToksScorer : Nat → Str → List GTok
  | 0, _ => []
  | _, [] => []
  | fuel + 1, '*' :: rest => GTok.starAny :: globToksScorer fuel rest
  | fuel + 1, '?' :: rest => GTok.anyChar :: globToksScorer fuel rest
  | fuel + 1, '.' :: rest => GTok.anyChar :: globToksScorer fuel rest
  | fuel + 1, '[' :: rest =>
    let body := rest.takeWhile (· ≠ ']')
    if body.length < rest.length then
      (match body with
       | '!' :: cs => GTok.cls true cs
       | cs => GTok.cls false cs) ::
        globToksScorer fuel (rest.drop (body.length + 1))
    else GTok.lit '[' :: globToksScorer fuel rest
  | fuel + 1, c :: rest => GTok.lit c :: globToksScorer fuel rest

namespace RelevanceScorer

/-- The static `keywordWeights` map, in insertion order. -/
def keywordWeights : List (Str × Int) :=
  [(str "main", 10), (str "index", 10), (str "app", 9), (str "core", 9),
   (str "api", 8), (str "service", 8), (str "controller", 8), (str "model", 8),
   (str "interface", 7), (str "type", 7), (str "schema", 7), (str "config", 7),
   (str "util", 5), (str "helper", 5), (str "lib", 5), (str "common", 5),
   (str "component", 5), (str "module", 5), (str "route", 5), (str "middleware", 5),
   (str "test", 2), (str "spec", 2), (str "mock", 2), (str "example", 2),
   (str "demo", 1), (str "sample", 1), (str "backup", 1), (str "old", 1),
   (str "deprecated", -5), (str "legacy", -5), (str "temp", -5), (str "tmp", -5),
   (str "node_modules", -10), (str "dist", -10), (str "build", -10),
   (str "coverage", -10)]

/-- Keyword contribution to a path part or filename. -/
def keywordSum (s : Str) : Int :=
  keywordWeights.foldl
    (fun acc kw => if containsSub kw.1 s then acc + kw.2 else acc) 0

/-- `calculatePathScore`. -/
def calculatePathScore (filePath : Str) : Int :=
  let parts := splitOnC '/' (lower filePath)
  let score : Int := 50 + (parts.map keywordSum).foldl (· + ·) 0
    + (if parts.contains (str "src") || parts.contains (str "lib") then 10 else 0)
    - max 0 (((parts.length : Int) - 4) * 2)
  max 0 (min 100 score)

/-- `calculateNameScore`. -/
def calculateNameScore (filename : Str) : Int :=
  let nameLower := lower filename
  let nameWithoutExt := lower (parseNameNoExt filename)
  let important := [str "index", str "main", str "app", str "server", str "api"]
  let score : Int := 50
    + (if important.contains nameWithoutExt then 30 else 0)
    + keywordSum nameLower
    - (if containsSub (str "test") nameLower || containsSub (str "spec") nameLower
       then 20 else 0)
    - (if filename.length > 50 then 10 else 0)
  max 0 (min 100 score)

/-- The static extension score table of `calculateTypeScore`. -/
def typeScores : List (Str × Int) :=
  [(str ".ts", 90), (str ".tsx", 85), (str ".js", 80), (str ".jsx", 75),
   (str ".py", 80), (str ".go", 80), (str ".rs", 80), (str ".java", 75),
   (str ".cs", 75), (str ".cpp", 70), (str ".c", 70), (str ".h", 65),
   (str ".hpp", 65), (str ".json", 60), (str ".yaml", 60), (str ".yml", 60),
   (str ".xml", 55), (str ".md", 50), (str ".txt", 40), (str ".log", 20),
   (str ".lock", 10)]

/-- `calculateTypeScore`. -/
def calculateTypeScore (filePath : Str) : Int :=
  match typeScores.lookup (lower (pathExtname filePath)) with
  | some v => v
  | none => 30

/-- `calculateDepthScore`. -/
def calculateDepthScore (filePath : Str) (contextPath : Option Str) : Int :=
  let depth : Int := (splitOnC '/' filePath).length
  match contextPath with
  | some ctx =>
    let contextDepth : Int := (splitOnC '/' ctx).length
    let relativeDepth := depth - contextDepth
    if relativeDepth = 0 then 100
    else if relativeDepth = 1 then 90
    else if relativeDepth = 2 then 70
    else max 0 (100 - relativeDepth * 10)
  | none =>
    if depth ≤ 3 then 90
    else if depth ≤ 5 then 70
    else if depth ≤ 7 then 50
    else max 0 (100 - depth * 5)

/-- `calculateSizeScore` (a failed `getStats` yields the neutral 50). -/
def calculateSizeScore (fs : FS) (filePath : Str) : Int :=
  match fs.statsOf filePath with
  | none => 50
  | some st =>
    let sizeKB : ℚ := (st.size : ℚ) / 1024
    if 1 ≤ sizeKB ∧ sizeKB ≤ 50 then 100
    else if 50 < sizeKB ∧ sizeKB ≤ 200 then 80
    else if sizeKB < 1 then 20
    else if 200 < sizeKB ∧ sizeKB ≤ 500 then 60
    else if 500 < sizeKB ∧ sizeKB ≤ 1000 then 40
    else 20

/-- `calculateRecencyScore` (age in days relative to `now`, in epoch ms). -/
def calculateRecencyScore (fs : FS) (now : Int) (filePath : Str) : Int :=
  match fs.statsOf filePath with
  | none => 50
  | some st =>
    let days : ℚ := ((now - st.modifiedAt : Int) : ℚ) / 86400000
    if days < 1 then 100
    else if days < 7 then 90
    else if days < 30 then 70
    else if days < 90 then 50
    else if days < 365 then 30
    else 10

/-- Non-overlapping occurrence count (`content.match(new RegExp(term, 'g'))`,
for a plain-text term); fuelled for structural recursion. -/
def countOccGo (pat : Str) : Nat → Str → Nat
  | 0, _ => 0
  | _, [] => 0
  | fuel + 1, c :: rest =>
    if pat.isPrefixOf (c :: rest) && !pat.isEmpty then
      1 + countOccGo pat fuel (rest.drop (pat.length - 1))
    else countOccGo pat fuel rest

/-- See `countOccGo`. -/
def countOcc (pat s : Str) : Nat := countOccGo pat s.length s

/-- `calculateQueryRelevance`. -/
def calculateQueryRelevance (fs : FS) (filePath : Str) (query : Str) : Int :=
  let queryTerms :=
    (ContextOptimizer.wordsOf (lower query)).filter (fun t => t.length > 2)
  let filename := lower (pathBasename filePath)
  let pathLower := lower filePath
  let base : Int :=
    (queryTerms.map (fun t => if containsSub t filename then (20 : Int) else 0)).foldl (· + ·) 0
    + (queryTerms.map (fun t => if containsSub t pathLower then (10 : Int) else 0)).foldl (· + ·) 0
  let withContent : Int :=
    match fs.statsOf filePath with
    | none => base
    | some st =>
      if st.size < 100 * 1024 then
        match fs.readFile filePath with
        | none => base
        | some content =>
          let contentLower := lower content
          base + (queryTerms.map (fun t =>
            min ((countOcc t contentLower : Int) * 2) 30)).foldl (· + ·) 0
      else base
  min withContent 100

/-- Per-factor scoring weights (`queryScore` is optional in the source and
defaulted with `|| 2.0`). -/
structure Weights where
  pathScore : ℚ
  nameScore : ℚ
  typeScore : ℚ
  depthScore : ℚ
  sizeScore : ℚ
  recencyScore : ℚ
  queryScore : Option ℚ
deriving DecidableEq

/-- `a || d` for optional rationals (`0` is falsy). -/
def jsOrQ (o : Option ℚ) (d : ℚ) : ℚ :=
  match o with
  | some x => if x = 0 then d else x
  | none => d

/-- `getDefaultWeights`. -/
def getDefaultWeights : Weights :=
  ⟨1.5, 2.0, 1.2, 0.8, 0.5, 0.7, some 2.5⟩

/-- `ScoringCriteria`. -/
structure ScoringCriteria where
  query : Option Str
  contextPath : Option Str
  fileTypes : Option (List Str)
  includePatterns : Option (List Str)
  excludePatterns : Option (List Str)
  threshold : Option ℚ
  weights : Option Weights
deriving DecidableEq

/-- `RelevanceFactors`. -/
structure RelevanceFactors where
  pathScore : Int
  nameScore : Int
  typeScore : Int
  depthScore : Int
  sizeScore : Int
  recencyScore : Int
deriving DecidableEq

/-- `calculateRelevance`. -/
def calculateRelevance (fs : FS) (now : Int) (filePath : Str)
    (contextPath : Option Str) : RelevanceFactors :=
  { pathScore := calculatePathScore filePath
    nameScore := calculateNameScore (pathBasename filePath)
    typeScore := calculateTypeScore filePath
    depthScore := calculateDepthScore filePath contextPath
    sizeScore := calculateSizeScore fs filePath
    recencyScore := calculateRecencyScore fs now filePath }

/-- `FileRelevance`. -/
structure FileRelevance where
  path : Str
  score : ℚ
  factors : RelevanceFactors
  reason : Str
deriving DecidableEq

/-- `matchesPattern` of the scorer. -/
def matchesPattern (filePath pattern : Str) : Bool :=
  gTest (globToksScorer pattern.length pattern) filePath

/-- The `Object.entries(factors)` list in insertion order. -/
def factorEntries (f : RelevanceFactors) : List (Nat × Int) :=
  [(0, f.pathScore), (1, f.nameScore), (2, f.typeScore),
   (3, f.depthScore), (4, f.sizeScore), (5, f.recencyScore)]

/-- The phrase attached to each factor in `generateReason`. -/
def factorPhrase (idx : Nat) : Str :=
  if idx = 0 then str "important path location"
  else if idx = 1 then str "significant filename"
  else if idx = 2 then str "relevant file type"
  else if idx = 3 then str "good file depth"
  else if idx = 4 then str "optimal file size"
  else str "recently modified"

/-- `generateReason` (called with the pre-clamp total score). -/
def generateReason (f : RelevanceFactors) (totalScore : ℚ) : Str :=
  let sorted := sortByDesc (fun e : Nat × Int => e.2) (factorEntries f)
  let reasons := ((sorted.take 3).filter (fun e => e.2 ≥ 80)).map
    (fun e => factorPhrase e.1)
  if reasons.isEmpty then
    if totalScore ≥ 70 then str "generally relevant"
    else if totalScore ≥ 40 then str "moderately relevant"
    else str "low relevance"
  else joinWith (str ", ") reasons

/-- `scoreFile`. -/
def scoreFile (fs : FS) (now : Int) (criteria : ScoringCriteria)
    (filePath : Str) : FileRelevance :=
  let factors := calculateRelevance fs now filePath criteria.contextPath
  let weights :=
    match criteria.weights with
    | some w => w
    | none => getDefaultWeights
  let base : ℚ :=
    (factors.pathScore : ℚ) * weights.pathScore
    + (factors.nameScore : ℚ) * weights.nameScore
    + (factors.typeScore : ℚ) * weights.typeScore
    + (factors.depthScore : ℚ) * weights.depthScore
    + (factors.sizeScore : ℚ) * weights.sizeScore
    + (factors.recencyScore : ℚ) * weights.recencyScore
  let withQuery : ℚ :=
    match criteria.query with
    | some q =>
      base + (calculateQueryRelevance fs filePath q : ℚ) * jsOrQ weights.queryScore 2
    | none => base
  let afterTypes : ℚ :=
    match criteria.fileTypes with
    | some types =>
      if !types.isEmpty && !types.contains (lower (pathExtname filePath)) then
        withQuery * (1 / 10)
      else withQuery
    | none => withQuery
  let afterIncludes : ℚ :=
    match criteria.includePatterns with
    | some pats =>
      if pats.any (fun p => matchesPattern filePath p) then afterTypes
      else afterTypes * (1 / 5)
    | none => afterTypes
  let afterExcludes : ℚ :=
    match criteria.excludePatterns with
    | some pats =>
      if pats.any (fun p => matchesPattern filePath p) then 0 else afterIncludes
    | none => afterIncludes
  { path := filePath
    score := max 0 (min 100 afterExcludes)
    factors := factors
    reason := generateReason factors afterExcludes }

/-- Truthiness of `criteria.threshold` (`0` and `undefined` are falsy). -/
def thresholdTruthy (o : Option ℚ) : Bool :=
  match o with
  | some t => t ≠ 0
  | none => false

/-- `scoreFiles`: score, stable-sort descending, optionally filter by the
threshold. -/
def scoreFiles (fs : FS) (now : Int) (files : List Str)
    (criteria : ScoringCriteria) : List FileRelevance :=
  let scored := files.map (scoreFile fs now criteria)
  let sorted := sortByDesc FileRelevance.score scored
  if thresholdTruthy criteria.threshold then
    sorted.filter (fun f => f.score ≥ jsOrQ criteria.threshold 0)
  else sorted

end RelevanceScorer

/-- `LoadingOptions` (the per-call configuration). -/
structure LoadingOptions where
  maxTokens : Option Nat
  maxDepth : Option Nat
  fileTypes : Option (List Str)
  includePatterns : Option (List Str)
  excludePatterns : Option (List Str)
  query : Option Str
deriving DecidableEq

/-- `LoadedContext` (the strategy output; the auxiliary metadata map, which no
claim depends on, is not modelled). -/
structure LoadedContext where
  files : List (Str × Str)
  totalTokens : Nat
  strategy : Str
deriving DecidableEq

/-- JavaScript `Map.prototype.set`: overwrite in place, else append. -/
def mapSet (m : List (Str × Str)) (k v : Str) : List (Str × Str) :=
  match m with
  | [] => [(k, v)]
  | (k', v') :: rest =>
    if k' = k then (k, v) :: rest else (k', v') :: mapSet rest k v

/-- JavaScript `Map.prototype.has`. -/
def mapHas (m : List (Str × Str)) (k : Str) : Bool := m.any (fun e => e.1 = k)

/-- The fast strategy-side estimator `Math.ceil(content.length / 4)`. -/
def estimateTokens (content : Str) : Nat := ceilDiv content.length 4

/-- Sum of the fast token estimates over a loaded file map. -/
def sumEstimates (m : List (Str × Str)) : Nat :=
  (m.map (fun e => estimateTokens e.2)).sum

/-- Truthiness of an optional string (`''` is falsy). -/
def jsTruthyStr (o : Option Str) : Bool :=
  match o with
  | some s => !s.isEmpty
  | none => false

/-- Glob translation of `FocusedLoadingStrategy.matchesPattern`:
`\\ → /` first, then `** → .*`, `* → [^/]*`, `? → .`, `[!..] → [^..]`; an
unescaped `'.'` is the regex wildcard. -/
def globToksFocused : Nat → Str → List GTok
  | 0, _ => []
  | _, [] => []
  | fuel + 1, '*' :: '*' :: rest => GTok.starAny :: globToksFocused fuel rest
  | fuel + 1, '*' :: rest => GTok.starNonSlash :: globToksFocused fuel rest
  | fuel + 1, '?' :: rest => GTok.anyChar :: globToksFocused fuel rest
  | fuel + 1, '.' :: rest => GTok.anyChar :: globToksFocused fuel rest
  | fuel + 1, '[' :: rest =>
    let body := rest.takeWhile (· ≠ ']')
    if body.length < rest.length then
      (match body with
       | '!' :: cs => GTok.cls true cs
       | cs => GTok.cls false cs) ::
        globToksFocused fuel (rest.drop (body.length + 1))
    else GTok.lit '[' :: globToksFocused fuel rest
  | fuel + 1, c :: rest =>
    GTok.lit (if c = '\\' then '/' else c) :: globToksFocused fuel rest

namespace Focused

open RelevanceScorer

/-- Path separators normalised to `/` (`replace(/\\/g, '/')`). -/
def normalizeSlashes (s : Str) : Str := s.map (fun c => if c = '\\' then '/' else c)

/-- `FocusedLoadingStrategy.matchesPattern`. -/
def matchesPattern (filePath pattern : Str) : Bool :=
  gTest (globToksFocused pattern.length (normalizeSlashes pattern))
    (normalizeSlashes filePath)

/-- The hard-coded `defaultExcludes` of the focused strategy. -/
def defaultExcludes : List Str :=
  [str "node_modules", str ".git", str ".svn", str ".hg",
   str "dist", str "build", str "coverage", str ".cache",
   str ".next", str ".nuxt", str ".turbo", str "venv",
   str "__pycache__", str ".pytest_cache", str ".mypy_cache"]

/-- `FocusedLoadingStrategy.shouldExclude`. -/
def shouldExclude (filename fullPath : Str) (opts : LoadingOptions) : Bool :=
  defaultExcludes.contains filename ||
    (match opts.excludePatterns with
     | some pats => pats.any (fun p => matchesPattern fullPath p)
     | none => false)

/-- The default file types of `matchesFileType`. -/
def defaultTypes : List Str :=
  [str ".ts", str ".tsx", str ".js", str ".jsx",
   str ".py", str ".go", str ".rs", str ".java",
   str ".json", str ".yaml", str ".yml",
   str ".md", str ".txt"]

/-- `FocusedLoadingStrategy.matchesFileType`. -/
def matchesFileType (filename : Str) (opts : LoadingOptions) : Bool :=
  match opts.fileTypes with
  | none => defaultTypes.any (fun ext => ext.isSuffixOf filename)
  | some types =>
    if types.isEmpty then defaultTypes.any (fun ext => ext.isSuffixOf filename)
    else types.any (fun t =>
      match t with
      | '.' :: _ => t.isSuffixOf filename
      | _ => containsSub t filename)

/-- The per-directory entry loop of the `findAllFiles` walk; `recur` is the
recursive call into sub-directories (one depth level deeper), and a failed
`getStats` aborts the remaining entries of this directory (the exception is
caught at the directory level). -/
def faEntries (fs : FS) (opts : LoadingOptions) (root dir : Str)
    (recur : Str → List Str → List Str × List Str) :
    List Str → List Str → List Str × List Str
  | [], visited => ([], visited)
  | entry :: rest, visited =>
    let fullPath := pathJoin dir entry
    if shouldExclude entry fullPath opts then
      faEntries fs opts root dir recur rest visited
    else
      match fs.statsOf fullPath with
      | none => ([], visited)
      | some st =>
        if st.isDirectory then
          let sub := recur fullPath visited
          let more := faEntries fs opts root dir recur rest sub.2
          (sub.1 ++ more.1, more.2)
        else
          if matchesFileType entry opts then
            let more := faEntries fs opts root dir recur rest visited
            (pathRelative root fullPath :: more.1, more.2)
          else faEntries fs opts root dir recur rest visited

/-- The `findAllFiles` walk; the fuel is `maxDepth + 1 - depth`, so fuel `0`
is the `depth > maxDepth` guard. -/
def faGo (fs : FS) (opts : LoadingOptions) (root : Str) :
    Nat → Str → List Str → List Str × List Str
  | 0, _, visited => ([], visited)
  | fuel + 1, dir, visited =>
    if visited.contains dir then ([], visited)
    else
      match fs.listDir dir with
      | none => ([], dir :: visited)
      | some entries =>
        faEntries fs opts root dir (faGo fs opts root fuel) entries (dir :: visited)

/-- `FocusedLoadingStrategy.findAllFiles`. -/
def findAllFiles (fs : FS) (root : Str) (opts : LoadingOptions) : List Str :=
  (faGo fs opts root (jsOrNat opts.maxDepth 10 + 1) root []).1

/-- The focused per-factor weights. -/
def focusedWeights : Weights := ⟨2.0, 2.5, 1.0, 0.5, 0.3, 0.2, some 3.0⟩

/-- The per-file pattern boost of `scoreFilesByFocus`: each matching include
pattern multiplies the score by 1.5 and extends the reason. -/
def applyBoost (pats : List Str) (f : FileRelevance) : FileRelevance :=
  pats.foldl (fun f p =>
    if matchesPattern f.path p then
      { f with score := f.score * (3 / 2),
               reason := f.reason ++ str ", matches pattern: " ++ p }
    else f) f

/-- `FocusedLoadingStrategy.scoreFilesByFocus`. -/
def scoreFilesByFocus (fs : FS) (now : Int) (files : List Str) (rootPath : Str)
    (opts : LoadingOptions) : List FileRelevance :=
  let criteria : ScoringCriteria :=
    ⟨opts.query, some rootPath, opts.fileTypes, opts.includePatterns,
     opts.excludePatterns, some 30, some focusedWeights⟩
  let scored := scoreFiles fs now files criteria
  let boosted :=
    match opts.includePatterns with
    | some pats => scored.map (applyBoost pats)
    | none => scored
  (sortByDesc FileRelevance.score boosted).filter (fun f => f.score ≥ 30)

/-- The admission loop of the focused `loadContext`: break once the total
meets the budget, skip unreadable files, admit a file only when it fits. -/
def loadGo (fs : FS) (root : Str) (maxTokens : Nat) :
    List FileRelevance → List (Str × Str) → Nat → List (Str × Str) × Nat
  | [], files, tot => (files, tot)
  | f :: rest, files, tot =>
    if tot ≥ maxTokens then (files, tot)
    else
      match fs.readFile (pathJoin root f.path) with
      | none => loadGo fs root maxTokens rest files tot
      | some content =>
        let tokens := estimateTokens content
        if tot + tokens ≤ maxTokens then
          loadGo fs root maxTokens rest (mapSet files f.path content) (tot + tokens)
        else loadGo fs root maxTokens rest files tot

/-- `FocusedLoadingStrategy.loadContext`.  The result is a function of the
file-system snapshot only through the branches after the configuration
check, so the configuration error is independent of the file system. -/
def loadContext (fs : FS) (now : Int) (rootPath : Str) (opts : LoadingOptions) :
    Except Str LoadedContext :=
  if !jsTruthyStr opts.query && !jsLenTruthy opts.includePatterns then
    .error (str "Focused strategy requires either a query or include patterns")
  else
    let maxTokens := jsOrNat opts.maxTokens 8000
    let allFiles := findAllFiles fs rootPath opts
    let scoredFiles := scoreFilesByFocus fs now allFiles rootPath opts
    let packed := loadGo fs rootPath maxTokens scoredFiles [] 0
    .ok ⟨packed.1, packed.2, str "focused"⟩

end Focused

/-- Stable insert for an ascending sort by key. -/
def insertByAsc (key : α → β) [LinearOrder β] (x : α) : List α → List α
  | [] => [x]
  | y :: ys => if key x ≤ key y then x :: y :: ys else y :: insertByAsc key x ys

/-- Stable ascending sort by key (models `Array.prototype.sort` with an
ascending comparator). -/
def sortByAsc (key : α → β) [LinearOrder β] : List α → List α
  | [] => []
  | x :: xs => insertByAsc key x (sortByAsc key xs)

/-- Merge a sub-loader's returned map into an accumulated context, adding the
fast estimate of every returned entry to the running total (the
`for ([filePath, content] of ...) { files.set(...); totalTokens += ... }`
loops of the progressive and breadth-first strategies). -/
def mergeStage (files : List (Str × Str)) (tot : Nat)
    (stage : List (Str × Str)) : List (Str × Str) × Nat :=
  stage.foldl (fun acc e => (mapSet acc.1 e.1 e.2, acc.2 + estimateTokens e.2))
    (files, tot)

namespace Progressive

open RelevanceScorer

/-- The `structure` field of the analyzer's `ProjectInfo` (only the parts the
strategy reads). -/
structure ProjectStructure where
  configFiles : List Str
  docsDirs : List Str
deriving DecidableEq

/-- The external analyzer's `ProjectInfo` (an opaque collaborator: the
strategy consumes it as input). -/
structure ProjectInfo where
  entryPoints : List Str
  struct : ProjectStructure
deriving DecidableEq

/-- The `corePatterns` list of `loadCoreFiles`. -/
def corePatterns : List Str :=
  [str "README.md", str "readme.md", str "package.json", str "tsconfig.json",
   str ".env.example", str "docker-compose.yml"]

/-- `loadCoreFiles`: entry points first (read failures skipped), then the
fixed core-file list guarded by `exists` and `has`. -/
def loadCoreFiles (fs : FS) (root : Str) (entryPoints : List Str) :
    List (Str × Str) :=
  let fromEntries := entryPoints.foldl (fun m ep =>
    match fs.readFile (pathJoin root ep) with
    | some c => mapSet m ep c
    | none => m) []
  corePatterns.foldl (fun m p =>
    if mapHas m p then m
    else if fs.pathExists (pathJoin root p) then
      match fs.readFile (pathJoin root p) with
      | some c => mapSet m p c
      | none => m
    else m) fromEntries

/-- The fixed priority list of `loadConfigFiles`. -/
def configPriorities : List Str :=
  [str "package.json", str "tsconfig.json", str ".env", str "config."]

/-- `priorities.findIndex(p => name.includes(p))`, with `-1` mapped to a
large key so that not-found entries sort last (the source comparator is
inconsistent on two not-found entries; a stable ascending sort by this key is
the modelled behaviour). -/
def configPriorityKey (name : Str) : Nat :=
  match configPriorities.findIdx? (fun p => containsSub p name) with
  | some i => i
  | none => configPriorities.length

/-- `loadConfigFiles`: sort by priority, take the first 10, load (read
failures skipped). -/
def loadConfigFiles (fs : FS) (root : Str) (configFiles : List Str) :
    List (Str × Str) :=
  ((sortByAsc configPriorityKey configFiles).take 10).foldl (fun m cf =>
    match fs.readFile (pathJoin root cf) with
    | some c => mapSet m cf c
    | none => m) []

/-- `shouldIgnore` of the progressive walk. -/
def shouldIgnore (name : Str) : Bool :=
  ([str "node_modules", str ".git", str ".svn", str ".hg",
    str "dist", str "build", str "coverage", str ".cache",
    str ".next", str ".nuxt", str ".turbo", str "venv",
    str "__pycache__", str ".pytest_cache", str ".mypy_cache",
    str ".DS_Store", str "Thumbs.db"]).contains name ||
  (match name with
   | '.' :: _ => true
   | _ => false)

/-- `isSourceFile`. -/
def isSourceFile (name : Str) : Bool :=
  ([str ".ts", str ".tsx", str ".js", str ".jsx",
    str ".py", str ".go", str ".rs", str ".java",
    str ".cs", str ".cpp", str ".c", str ".h",
    str ".rb", str ".php", str ".swift", str ".kt"]).any
    (fun ext => ext.isSuffixOf name)

/-- Entry loop of the `findSourceFiles` walk (a failed `isDirectory` aborts
the remaining entries of the directory — the exception is caught at the
directory level). -/
def fsfEntries (fs : FS) (root dir : Str)
    (recur : Str → List Str → List Str × List Str) :
    List Str → List Str → List Str × List Str
  | [], visited => ([], visited)
  | entry :: rest, visited =>
    let fullPath := pathJoin dir entry
    if shouldIgnore entry then fsfEntries fs root dir recur rest visited
    else
      match fs.isDirP fullPath with
      | none => ([], visited)
      | some isDir =>
        if isDir then
          let sub := recur fullPath visited
          let more := fsfEntries fs root dir recur rest sub.2
          (sub.1 ++ more.1, more.2)
        else if isSourceFile entry then
          let more := fsfEntries fs root dir recur rest visited
          (pathRelative root fullPath :: more.1, more.2)
        else fsfEntries fs root dir recur rest visited

/-- The `findSourceFiles` walk (depth bound fixed at 5). -/
def fsfGo (fs : FS) (root : Str) : Nat → Str → List Str → List Str × List Str
  | 0, _, visited => ([], visited)
  | fuel + 1, dir, visited =>
    if visited.contains dir then ([], visited)
    else
      match fs.listDir dir with
      | none => ([], dir :: visited)
      | some entries =>
        fsfEntries fs root dir (fsfGo fs root fuel) entries (dir :: visited)

/-- `findSourceFiles`. -/
def findSourceFiles (fs : FS) (root : Str) : List Str :=
  (fsfGo fs root 6 root []).1

/-- The admission loop of `loadRelevantFiles` (soft skip under the budget). -/
def lrfGo (fs : FS) (root : Str) (budget : Nat) :
    List FileRelevance → List (Str × Str) → Nat → List (Str × Str) × Nat
  | [], m, used => (m, used)
  | f :: rest, m, used =>
    if used ≥ budget then (m, used)
    else
      match fs.readFile (pathJoin root f.path) with
      | none => lrfGo fs root budget rest m used
      | some content =>
        let tokens := estimateTokens content
        if used + tokens ≤ budget then
          lrfGo fs root budget rest (mapSet m f.path content) (used + tokens)
        else lrfGo fs root budget rest m used

/-- `loadRelevantFiles`. -/
def loadRelevantFiles (fs : FS) (now : Int) (root : Str) (query : Str)
    (tokenBudget : Nat) (existingFiles : List (Str × Str)) : List (Str × Str) :=
  let sourceFiles := findSourceFiles fs root
  let unloaded := sourceFiles.filter (fun f => !mapHas existingFiles f)
  let criteria : ScoringCriteria :=
    ⟨some query, some root,
     some [str ".ts", str ".tsx", str ".js", str ".jsx",
           str ".py", str ".go", str ".rs"],
     none, none, some 40, none⟩
  let scored := scoreFiles fs now unloaded criteria
  (lrfGo fs root tokenBudget scored [] 0).1

/-- `findDocumentationFiles` (a failed listing yields the empty list). -/
def findDocumentationFiles (fs : FS) (docsPath : Str) : List Str :=
  match fs.listDir docsPath with
  | none => []
  | some entries =>
    (entries.filter (fun e => (str ".md").isSuffixOf (lower e))).map
      (fun e => pathJoin docsPath e)

/-- The `mainDocs` list of `loadDocumentation`. -/
def mainDocs : List Str :=
  [str "README.md", str "CONTRIBUTING.md", str "API.md", str "ARCHITECTURE.md"]

/-- The root-documentation loop of `loadDocumentation` (break on budget,
per-file failures skipped). -/
def loadDocMain (fs : FS) (root : Str) (budget : Nat) :
    List Str → List (Str × Str) → Nat → List (Str × Str) × Nat
  | [], m, used => (m, used)
  | docFile :: rest, m, used =>
    if used ≥ budget then (m, used)
    else if fs.pathExists (pathJoin root docFile) then
      match fs.readFile (pathJoin root docFile) with
      | none => loadDocMain fs root budget rest m used
      | some content =>
        let tokens := estimateTokens content
        if used + tokens ≤ budget then
          loadDocMain fs root budget rest (mapSet m docFile content) (used + tokens)
        else loadDocMain fs root budget rest m used
    else loadDocMain fs root budget rest m used

/-- The per-docs-directory file loop (a failed read aborts the directory —
the exception is caught at the directory level). -/
def loadDocDirFiles (fs : FS) (root : Str) (budget : Nat) :
    List Str → List (Str × Str) → Nat → List (Str × Str) × Nat
  | [], m, used => (m, used)
  | docFile :: rest, m, used =>
    if used ≥ budget then (m, used)
    else
      match fs.readFile docFile with
      | none => (m, used)
      | some content =>
        let tokens := estimateTokens content
        if used + tokens ≤ budget then
          loadDocDirFiles fs root budget rest
            (mapSet m (pathRelative root docFile) content) (used + tokens)
        else loadDocDirFiles fs root budget rest m used

/-- The docs-directories loop of `loadDocumentation`. -/
def loadDocDirs (fs : FS) (root : Str) (budget : Nat) :
    List Str → List (Str × Str) → Nat → List (Str × Str) × Nat
  | [], m, used => (m, used)
  | docsDir :: rest, m, used =>
    if used ≥ budget then (m, used)
    else
      let docFiles := findDocumentationFiles fs (pathJoin root docsDir)
      let next := loadDocDirFiles fs root budget (docFiles.take 5) m used
      loadDocDirs fs root budget rest next.1 next.2

/-- `loadDocumentation`. -/
def loadDocumentation (fs : FS) (root : Str) (docsDirs : List Str)
    (tokenBudget : Nat) : List (Str × Str) :=
  let first := loadDocMain fs root tokenBudget mainDocs [] 0
  (loadDocDirs fs root tokenBudget docsDirs first.1 first.2).1

/-- The hard-stop admission of stages 2 and 3 of the progressive
`loadContext`: stop at the first file that would exceed the budget. -/
def admitHard : List (Str × Str) → Nat → List (Str × Str) → Nat →
    List (Str × Str) × Nat
  | [], _, files, tot => (files, tot)
  | (p, c) :: rest, maxT, files, tot =>
    let tokens := estimateTokens c
    if tot + tokens > maxT then (files, tot)
    else admitHard rest maxT (mapSet files p c) (tot + tokens)

/-- Stage 2 of the progressive `loadContext`: entry points and core files,
hard stop on the first file that would exceed the budget. -/
def stage2 (fs : FS) (pi : ProjectInfo) (rootPath : Str) (maxTokens : Nat) :
    List (Str × Str) × Nat :=
  admitHard (loadCoreFiles fs rootPath pi.entryPoints) maxTokens [] 0

/-- Stage 3: configuration files, gated by `totalTokens < maxTokens * 0.8`. -/
def stage3 (fs : FS) (pi : ProjectInfo) (rootPath : Str) (maxTokens : Nat)
    (st : List (Str × Str) × Nat) : List (Str × Str) × Nat :=
  if (st.2 : ℚ) < (maxTokens : ℚ) * (4 / 5) then
    admitHard (loadConfigFiles fs rootPath pi.struct.configFiles)
      maxTokens st.1 st.2
  else st

/-- Stage 4: query-relevant source files, gated by
`options.query && totalTokens < maxTokens * 0.9`. -/
def stage4 (fs : FS) (now : Int) (rootPath : Str) (opts : LoadingOptions)
    (maxTokens : Nat) (st : List (Str × Str) × Nat) : List (Str × Str) × Nat :=
  match opts.query with
  | some q =>
    if jsTruthyStr (some q) && (st.2 : ℚ) < (maxTokens : ℚ) * (9 / 10) then
      mergeStage st.1 st.2
        (loadRelevantFiles fs now rootPath q (maxTokens - st.2) st.1)
    else st
  | none => st

/-- Stage 5: documentation, gated by `totalTokens < maxTokens * 0.95`. -/
def stage5 (fs : FS) (pi : ProjectInfo) (rootPath : Str) (maxTokens : Nat)
    (st : List (Str × Str) × Nat) : List (Str × Str) × Nat :=
  if (st.2 : ℚ) < (maxTokens : ℚ) * (19 / 20) then
    mergeStage st.1 st.2
      (loadDocumentation fs rootPath pi.struct.docsDirs (maxTokens - st.2))
  else st

/-- `ProgressiveLoadingStrategy.loadContext` (the analyzer result is an
input, since the project analyzer is an external collaborator). -/
def loadContext (fs : FS) (now : Int) (pi : ProjectInfo) (rootPath : Str)
    (opts : LoadingOptions) : LoadedContext :=
  let maxTokens := jsOrNat opts.maxTokens 8000
  let st5 := stage5 fs pi rootPath maxTokens
    (stage4 fs now rootPath opts maxTokens
      (stage3 fs pi rootPath maxTokens (stage2 fs pi rootPath maxTokens)))
  ⟨st5.1, st5.2, str "progressive"⟩

end Progressive

/-- Glob translation of `BreadthFirstLoadingStrategy.matchesPattern`:
only `* → .*` and `? → .`; an unescaped `'.'` is the regex wildcard. -/
def globToksBF : Str → List GTok
  | [] => []
  | '*' :: rest => GTok.starAny :: globToksBF rest
  | '?' :: rest => GTok.anyChar :: globToksBF rest
  | '.' :: rest => GTok.anyChar :: globToksBF rest
  | c :: rest => GTok.lit c :: globToksBF rest

namespace BreadthFirst

/-- `BreadthFirstLoadingStrategy.matchesPattern`. -/
def matchesPattern (text pattern : Str) : Bool :=
  gTest (globToksBF pattern) text

/-- The filename priority table of `sortEntries`. -/
def entryPriority (name : Str) : Nat :=
  if name = str "README.md" then 1
  else if name = str "readme.md" then 1
  else if name = str "package.json" then 2
  else if name = str "tsconfig.json" then 3
  else if name = str "index.ts" then 4
  else if name = str "index.js" then 4
  else if name = str "main.ts" then 5
  else if name = str "main.js" then 5
  else if name = str "app.ts" then 6
  else if name = str "app.js" then 6
  else 999

/-- Lexicographic string comparison modelling `a.localeCompare(b)` on the
ASCII names that occur in directory listings. -/
def lexLe : Str → Str → Bool
  | [], _ => true
  | _ :: _, [] => false
  | a :: as, b :: bs => a < b || (a = b && lexLe as bs)

/-- The comparator order of `sortEntries`: priority first, then
alphabetical. -/
def entryLe (a b : Str) : Bool :=
  entryPriority a < entryPriority b ||
    (entryPriority a = entryPriority b && lexLe a b)

/-- Stable insertion for `sortEntries`. -/
def insertEntry (x : Str) : List Str → List Str
  | [] => [x]
  | y :: ys => if entryLe x y then x :: y :: ys else y :: insertEntry x ys

/-- `sortEntries` (stable sort under the priority-then-alphabetical
comparator). -/
def sortEntries : List Str → List Str
  | [] => []
  | x :: xs => insertEntry x (sortEntries xs)

/-- `isIgnoredDirectory`. -/
def isIgnoredDirectory (name : Str) : Bool :=
  ([str "node_modules", str ".git", str ".svn", str ".hg",
    str "dist", str "build", str "coverage", str ".cache",
    str ".next", str ".nuxt", str ".turbo", str "venv",
    str "__pycache__", str ".pytest_cache", str ".mypy_cache",
    str "vendor", str "tmp", str "temp"]).contains name ||
  (match name with
   | '.' :: _ => true
   | _ => false)

/-- `BreadthFirstLoadingStrategy.shouldExclude`. -/
def shouldExclude (entry : Str) (opts : LoadingOptions) : Bool :=
  isIgnoredDirectory entry ||
    (match opts.excludePatterns with
     | some pats => pats.any (fun p => matchesPattern entry p)
     | none => false)

/-- `filename.split('.').pop()?.toLowerCase()` over the basename. -/
def lastDotSeg (filename : Str) : Str :=
  match (splitOnC '.' (pathBasename filename)).getLast? with
  | some s => lower s
  | none => []

/-- The `commonExtensions` list of `shouldIncludeFile`. -/
def commonExtensions : List Str :=
  [str ".ts", str ".tsx", str ".js", str ".jsx",
   str ".py", str ".go", str ".rs", str ".java",
   str ".json", str ".yaml", str ".yml",
   str ".md", str ".txt", str ".env.example"]

/-- `shouldIncludeFile`. -/
def shouldIncludeFile (filename : Str) (opts : LoadingOptions) : Bool :=
  let ext := lastDotSeg filename
  let typeOk :=
    match opts.fileTypes with
    | some types =>
      if !types.isEmpty && !ext.isEmpty && !types.contains ('.' :: ext) then
        false
      else true
    | none => true
  if !typeOk then false
  else
    match opts.includePatterns with
    | some pats => pats.any (fun p => matchesPattern filename p)
    | none =>
      if ext.isEmpty then false else commonExtensions.contains ('.' :: ext)

/-- Entry loop of `getDirectoriesAtLevel` (per-entry `isDirectory` failures
skipped). -/
def gdEntries (fs : FS) (dir : Str)
    (recur : Str → List Str → List Str × List Str) :
    List Str → List Str → List Str × List Str
  | [], visited => ([], visited)
  | entry :: rest, visited =>
    let fullPath := pathJoin dir entry
    if isIgnoredDirectory entry then gdEntries fs dir recur rest visited
    else
      match fs.isDirP fullPath with
      | none => gdEntries fs dir recur rest visited
      | some isDir =>
        if isDir then
          let sub := recur fullPath visited
          let more := gdEntries fs dir recur rest sub.2
          (sub.1 ++ more.1, more.2)
        else gdEntries fs dir recur rest visited

/-- The `findDirs` recursion of `getDirectoriesAtLevel`; fuel counts the
levels still to descend (`fuel = 0` collects the directory). -/
def gdGo (fs : FS) : Nat → Str → List Str → List Str × List Str
  | fuel, path, visited =>
    if visited.contains path then ([], visited)
    else
      match fuel with
      | 0 => ([path], path :: visited)
      | f + 1 =>
        match fs.listDir path with
        | none => ([], path :: visited)
        | some entries =>
          gdEntries fs path (gdGo fs f) entries (path :: visited)

/-- `getDirectoriesAtLevel`. -/
def getDirectoriesAtLevel (fs : FS) (rootPath : Str) (targetLevel : Nat) :
    List Str :=
  if targetLevel = 0 then [rootPath]
  else (gdGo fs targetLevel rootPath []).1

/-- The per-directory entry loop of `loadFilesAtLevel` (break on budget;
per-entry stat/read failures skipped). -/
def lfalEntries (fs : FS) (opts : LoadingOptions) (root dir : Str)
    (budget : Nat) : List Str → List (Str × Str) → Nat → List (Str × Str) × Nat
  | [], m, used => (m, used)
  | entry :: rest, m, used =>
    if used ≥ budget then (m, used)
    else
      let fullPath := pathJoin dir entry
      if shouldExclude entry opts then
        lfalEntries fs opts root dir budget rest m used
      else
        match fs.isFileP fullPath with
        | none => lfalEntries fs opts root dir budget rest m used
        | some isF =>
          if isF && shouldIncludeFile entry opts then
            match fs.readFile fullPath with
            | none => lfalEntries fs opts root dir budget rest m used
            | some content =>
              let tokens := estimateTokens content
              if used + tokens ≤ budget then
                lfalEntries fs opts root dir budget rest
                  (mapSet m (pathRelative root fullPath) content) (used + tokens)
              else lfalEntries fs opts root dir budget rest m used
          else lfalEntries fs opts root dir budget rest m used

/-- The directory loop of `loadFilesAtLevel`; the unguarded `listDirectory`
propagates its failure to the caller. -/
def lfalDirs (fs : FS) (opts : LoadingOptions) (root : Str) (budget : Nat) :
    List Str → List (Str × Str) → Nat → Except Str (List (Str × Str) × Nat)
  | [], m, used => .ok (m, used)
  | dir :: rest, m, used =>
    if used ≥ budget then .ok (m, used)
    else
      match fs.listDir dir with
      | none => .error (str "listDirectory failed")
      | some entries =>
        let next := lfalEntries fs opts root dir budget (sortEntries entries) m used
        lfalDirs fs opts root budget rest next.1 next.2

/-- `loadFilesAtLevel`. -/
def loadFilesAtLevel (fs : FS) (opts : LoadingOptions) (root : Str)
    (targetLevel : Nat) (tokenBudget : Nat) :
    Except Str (List (Str × Str) × Nat) :=
  lfalDirs fs opts root tokenBudget (getDirectoriesAtLevel fs root targetLevel)
    [] 0

/-- The level loop of the breadth-first `loadContext`. -/
def levelsGo (fs : FS) (opts : LoadingOptions) (root : Str) (maxTokens : Nat) :
    List Nat → List (Str × Str) → Nat → Except Str (List (Str × Str) × Nat)
  | [], m, tot => .ok (m, tot)
  | level :: rest, m, tot =>
    if tot ≥ maxTokens then .ok (m, tot)
    else
      match loadFilesAtLevel fs opts root level (maxTokens - tot) with
      | .error e => .error e
      | .ok (levelFiles, _) =>
        let merged := mergeStage m tot levelFiles
        levelsGo fs opts root maxTokens rest merged.1 merged.2

/-- `BreadthFirstLoadingStrategy.loadContext` (the directory-structure
metadata tree, which is descriptive only and enters no claim, is not
modelled). -/
def loadContext (fs : FS) (rootPath : Str) (opts : LoadingOptions) :
    Except Str LoadedContext :=
  let maxTokens := jsOrNat opts.maxTokens 8000
  let maxDepth := jsOrNat opts.maxDepth 5
  match levelsGo fs opts rootPath maxTokens (List.range (maxDepth + 1)) [] 0 with
  | .error e => .error e
  | .ok (m, tot) => .ok ⟨m, tot, str "breadth-first"⟩

end BreadthFirst
section SortLemmas

variable {α : Type _} {β : Type _} [LinearOrder β]

theorem mem_insertByDesc (key : α → β) (x a : α) (l : List α) :
    a ∈ insertByDesc key x l ↔ a = x ∨ a ∈ l := by
  induction l with
  | nil => simp [insertByDesc]
  | cons y ys ih =>
    rw [insertByDesc]
    by_cases hc : key y ≤ key x
    · simp [hc]
    · simp [hc, ih]
      tauto

theorem pairwise_insertByDesc (key : α → β) (x : α) (l : List α)
    (h : l.Pairwise (fun a b => key b ≤ key a)) :
    (insertByDesc key x l).Pairwise (fun a b => key b ≤ key a) := by
  induction l with
  | nil => simp [insertByDesc]
  | cons y ys ih =>
    rw [insertByDesc]
    rcases List.pairwise_cons.mp h with ⟨hy, hys⟩
    by_cases hc : key y ≤ key x
    · rw [if_pos hc]
      refine List.pairwise_cons.mpr ⟨?_, h⟩
      intro z hz
      rcases List.mem_cons.mp hz with rfl | hz'
      · exact hc
      · exact le_trans (hy z hz') hc
    · rw [if_neg hc]
      refine List.pairwise_cons.mpr ⟨?_, ih hys⟩
      intro z hz
      rcases (mem_insertByDesc key x z ys).mp hz with rfl | hz'
      · exact le_of_lt (lt_of_not_le hc)
      · exact hy z hz'

theorem pairwise_sortByDesc (key : α → β) (l : List α) :
    (sortByDesc key l).Pairwise (fun a b => key b ≤ key a) := by
  induction l with
  | nil => simp [sortByDesc]
  | cons x xs ih => exact pairwise_insertByDesc key x _ ih

theorem mem_sortByDesc (key : α → β) (a : α) (l : List α) :
    a ∈ sortByDesc key l ↔ a ∈ l := by
  induction l with
  | nil => simp [sortByDesc]
  | cons x xs ih =>
    rw [sortByDesc, mem_insertByDesc key x a (sortByDesc key xs), ih]
    simp

theorem filter_insertByDesc (key : α → β) (q : β) (x : α) (l : List α) :
    (insertByDesc key x l).filter (fun a => decide (key a = q)) =
      if key x = q then x :: l.filter (fun a => decide (key a = q))
      else l.filter (fun a => decide (key a = q)) := by
  induction l with
  | nil => by_cases hx : key x = q <;> simp [insertByDesc, hx]
  | cons y ys ih =>
    rw [insertByDesc]
    by_cases hc : key y ≤ key x
    · rw [if_pos hc]
      by_cases hx : key x = q <;> simp [List.filter_cons, hx]
    · rw [if_neg hc]
      by_cases hy : key y = q
      · have hx : ¬ key x = q := by
          intro hx
          exact hc (le_of_eq (by rw [hx, hy]))
        simp [List.filter_cons, hy, hx, ih]
      · by_cases hx : key x = q <;> simp [List.filter_cons, hy, hx, ih]

theorem filter_sortByDesc (key : α → β) (q : β) (l : List α) :
    (sortByDesc key l).filter (fun a => decide (key a = q)) =
      l.filter (fun a => decide (key a = q)) := by
  induction l with
  | nil => simp [sortByDesc]
  | cons x xs ih =>
    rw [sortByDesc, filter_insertByDesc]
    by_cases hx : key x = q <;> simp [List.filter_cons, hx, ih]

end SortLemmas

namespace RelevanceScorer

theorem scoreFile_score_bounds (fs : FS) (now : Int)
    (criteria : ScoringCriteria) (filePath : Str) :
    0 ≤ (scoreFile fs now criteria filePath).score ∧
      (scoreFile fs now criteria filePath).score ≤ 100 :=
  ⟨le_max_left _ _, max_le (by norm_num) (min_le_left _ _)⟩

theorem scoreFiles_def (fs : FS) (now : Int) (files : List Str)
    (criteria : ScoringCriteria) :
    scoreFiles fs now files criteria =
      (if thresholdTruthy criteria.threshold then
        (sortByDesc FileRelevance.score
          (files.map (scoreFile fs now criteria))).filter
          (fun f => f.score ≥ jsOrQ criteria.threshold 0)
      else sortByDesc FileRelevance.score
        (files.map (scoreFile fs now criteria))) := rfl

end RelevanceScorer

/-- C3 -/
theorem scoreFiles_sorted_stable_threshold (fs : FS) (now : Int)
    (files : List Str) (criteria : RelevanceScorer.ScoringCriteria) :
    (RelevanceScorer.scoreFiles fs now files criteria).Pairwise
      (fun a b => b.score ≤ a.score)
    ∧ (∀ q : ℚ,
        (sortByDesc RelevanceScorer.FileRelevance.score
            (files.map (RelevanceScorer.scoreFile fs now criteria))).filter
          (fun f => decide (f.score = q)) =
        (files.map (RelevanceScorer.scoreFile fs now criteria)).filter
          (fun f => decide (f.score = q)))
    ∧ (∀ t : ℚ, criteria.threshold = some t →
        RelevanceScorer.scoreFiles fs now files criteria =
          (sortByDesc RelevanceScorer.FileRelevance.score
            (files.map (RelevanceScorer.scoreFile fs now criteria))).filter
            (fun f => decide (t ≤ f.score))) := by
  refine ⟨?_, ?_, ?_⟩
  · rw [RelevanceScorer.scoreFiles_def]
    by_cases h : RelevanceScorer.thresholdTruthy criteria.threshold
    · rw [if_pos h]
      exact List.Pairwise.filter _
        (pairwise_sortByDesc RelevanceScorer.FileRelevance.score _)
    · rw [if_neg h]
      exact pairwise_sortByDesc RelevanceScorer.FileRelevance.score _
  · intro q
    exact filter_sortByDesc RelevanceScorer.FileRelevance.score q _
  · intro t ht
    rw [RelevanceScorer.scoreFiles_def]
    by_cases h0 : t = 0
    · have hfalse : RelevanceScorer.thresholdTruthy criteria.threshold = false := by
        simp [RelevanceScorer.thresholdTruthy, ht, h0]
      rw [hfalse]
      simp only [Bool.false_eq_true, if_false]
      symm
      rw [List.filter_eq_self]
      intro f hf
      rcases List.mem_map.mp ((mem_sortByDesc _ f _).mp hf) with ⟨p, _, rfl⟩
      have := (RelevanceScorer.scoreFile_score_bounds fs now criteria p).1
      simp [h0]
      exact this
    · have htrue : RelevanceScorer.thresholdTruthy criteria.threshold = true := by
        simp [RelevanceScorer.thresholdTruthy, ht, h0]
      rw [htrue]
      simp only [if_true]
      congr 1
      funext f
      simp [RelevanceScorer.jsOrQ, ht, h0, ge_iff_le]

/-- The empty file-system snapshot (used by concrete witnesses). -/
def emptyFS : FS := ⟨[], [], []⟩

/-- Concrete scoring criteria with threshold 40 (C3 witness input). -/
def witCriteria : RelevanceScorer.ScoringCriteria :=
  ⟨none, none, none, none, none, some 40, none⟩

/-- C3 witness -/
theorem scoreFiles_sorted_stable_threshold_witness :
    RelevanceScorer.scoreFiles emptyFS 0 [str "a.ts", str "b.md"] witCriteria =
      (sortByDesc RelevanceScorer.FileRelevance.score
        ([str "a.ts", str "b.md"].map
          (RelevanceScorer.scoreFile emptyFS 0 witCriteria))).filter
        (fun f => decide ((40 : ℚ) ≤ f.score)) :=
  (scoreFiles_sorted_stable_threshold emptyFS 0 [str "a.ts", str "b.md"]
    witCriteria).2.2 40 rfl

namespace Focused

theorem applyBoost_nonneg (pats : List Str) (f : RelevanceScorer.FileRelevance)
    (h : 0 ≤ f.score) : 0 ≤ (applyBoost pats f).score := by
  induction pats generalizing f with
  | nil => exact h
  | cons p ps ih =>
    rw [applyBoost, List.foldl_cons]
    by_cases hm : matchesPattern f.path p
    · rw [if_pos hm]
      have hp : (0 : ℚ) ≤ f.score * (3 / 2) := by positivity
      exact ih _ hp
    · rw [if_neg hm]
      exact ih _ h

end Focused

/-- C4 amended -/
theorem scorer_clamped_focused_boost_nonneg :
    (∀ (fs : FS) (now : Int) (files : List Str)
      (criteria : RelevanceScorer.ScoringCriteria)
      (f : RelevanceScorer.FileRelevance),
      f ∈ RelevanceScorer.scoreFiles fs now files criteria →
        0 ≤ f.score ∧ f.score ≤ 100)
    ∧ (∀ (fs : FS) (now : Int) (files : List Str) (root : Str)
      (opts : LoadingOptions) (f : RelevanceScorer.FileRelevance),
      f ∈ Focused.scoreFilesByFocus fs now files root opts → 0 ≤ f.score) := by
  have hbase : ∀ (fs : FS) (now : Int) (files : List Str)
      (criteria : RelevanceScorer.ScoringCriteria)
      (f : RelevanceScorer.FileRelevance),
      f ∈ RelevanceScorer.scoreFiles fs now files criteria →
        0 ≤ f.score ∧ f.score ≤ 100 := by
    intro fs now files criteria f hf
    rw [RelevanceScorer.scoreFiles_def] at hf
    have hf' : f ∈ sortByDesc RelevanceScorer.FileRelevance.score
        (files.map (RelevanceScorer.scoreFile fs now criteria)) := by
      by_cases h : RelevanceScorer.thresholdTruthy criteria.threshold
      · rw [if_pos h] at hf
        exact List.mem_of_mem_filter hf
      · rwa [if_neg h] at hf
    rcases List.mem_map.mp ((mem_sortByDesc _ f _).mp hf') with ⟨p, _, rfl⟩
    exact RelevanceScorer.scoreFile_score_bounds fs now criteria p
  refine ⟨hbase, ?_⟩
  intro fs now files root opts f hf
  have hf' := List.mem_of_mem_filter hf
  rw [mem_sortByDesc] at hf'
  rcases hopt : opts.includePatterns with _ | pats
  · rw [hopt] at hf'
    exact (hbase _ _ _ _ _ hf').1
  · rw [hopt] at hf'
    rcases List.mem_map.mp hf' with ⟨g, hg, rfl⟩
    exact Focused.applyBoost_nonneg pats g (hbase _ _ _ _ _ hg).1

/-- Loading options carrying only the include pattern `*.ts` (C4
counterexample input). -/
def patOnlyOpts : LoadingOptions := ⟨none, none, none, some [str "*.ts"], none, none⟩

set_option maxRecDepth 400000 in
/-- C4 counterexample -/
theorem focused_boost_exceeds_clamp :
    (Focused.scoreFilesByFocus emptyFS 0 [str "index.ts"] (str "/r")
        patOnlyOpts).map RelevanceScorer.FileRelevance.score = [150]
    ∧ ¬((150 : ℚ) ≤ 100) := by
  constructor
  · with_unfolding_all decide
  · norm_num

/-- C5: with neither a (truthy) query nor a non-empty include-pattern list,
the focused strategy returns its configuration error for every file-system
snapshot — the result does not depend on the file system, so no file or
directory is consulted before the failure. -/
theorem focused_requires_query_or_patterns (fs : FS) (now : Int) (root : Str)
    (opts : LoadingOptions) (hq : opts.query = none)
    (hp : opts.includePatterns = none ∨ opts.includePatterns = some []) :
    Focused.loadContext fs now root opts =
      .error (str "Focused strategy requires either a query or include patterns") := by
  rcases hp with hp | hp <;>
    simp [Focused.loadContext, jsTruthyStr, jsLenTruthy, hq, hp]

/-- A non-empty file-system snapshot for the C5 witness. -/
def c5FS : FS := ⟨[(str "/r/a.ts", str "abc")], [(str "/r", [str "a.ts"])], []⟩

/-- C5 witness -/
theorem focused_requires_query_or_patterns_witness :
    Focused.loadContext c5FS 0 (str "/r") ⟨some 4000, some 3, none, none, none, none⟩ =
      .error (str "Focused strategy requires either a query or include patterns") :=
  focused_requires_query_or_patterns c5FS 0 (str "/r") _ rfl (Or.inl rfl)

namespace ContextOptimizer

/-- The selection rule the specification describes for the selective packing
loop: walk the (already sorted) scored sections, admit a section exactly when
its cost added to the running total fits the budget, skip it otherwise and
continue with the next one. -/
def selectiveAdmitted : List ScoredSection → Nat → Nat → List ScoredSection
  | [], _, _ => []
  | s :: rest, maxT, cur =>
    if cur + s.tokens > maxT then selectiveAdmitted rest maxT cur
    else s :: selectiveAdmitted rest maxT (cur + s.tokens)

theorem selectivePack_eq_admitted (l : List ScoredSection) (maxT : Nat) :
    ∀ (r : Str) (cur : Nat),
      selectivePack l maxT r cur =
        (((selectiveAdmitted l maxT cur).map ScoredSection.content).foldl
            jsAppendSep r,
         cur + ((selectiveAdmitted l maxT cur).map ScoredSection.tokens).sum) := by
  induction l with
  | nil => intro r cur; simp [selectivePack, selectiveAdmitted]
  | cons s rest ih =>
    intro r cur
    rw [selectivePack, selectiveAdmitted]
    by_cases hc : cur + s.tokens > maxT
    · rw [if_pos hc, if_pos hc, ih]
    · rw [if_neg hc, if_neg hc, ih]
      simp [List.foldl_cons]
      omega

/-- The three scored sections of the specification's selective example. -/
def exSelective : List ScoredSection :=
  [⟨str "C", 95, 80⟩, ⟨str "A", 90, 100⟩, ⟨str "B", 40, 250⟩]

end ContextOptimizer

/-- C6: the selective optimization equals the specification's description —
sort the scored sections by descending relevance score, then append each
section exactly when it fits the remaining budget, skipping non-fitting ones
and continuing (non-contiguous selection); on the example with costs
C:80, A:100, B:250, scores C:95, A:90, B:40 and budget 200, the pack keeps
exactly C and A with total cost 180. -/
theorem selective_sorts_and_packs :
    (∀ (content : Str) (maxT : Nat),
      ContextOptimizer.selectiveOptimization content maxT =
        ((ContextOptimizer.selectiveAdmitted
            (sortByDesc ContextOptimizer.ScoredSection.score
              (ContextOptimizer.selectiveScored content)) maxT 0).map
          ContextOptimizer.ScoredSection.content).foldl
          ContextOptimizer.jsAppendSep [])
    ∧ (∀ content : Str,
        (sortByDesc ContextOptimizer.ScoredSection.score
          (ContextOptimizer.selectiveScored content)).Pairwise
          (fun a b => b.score ≤ a.score))
    ∧ ContextOptimizer.selectivePack
        (sortByDesc ContextOptimizer.ScoredSection.score
          ContextOptimizer.exSelective) 200 [] 0 = (str "C\n\nA", 180) := by
  refine ⟨?_, ?_, ?_⟩
  · intro content maxT
    unfold ContextOptimizer.selectiveOptimization
    rw [ContextOptimizer.selectivePack_eq_admitted]
  · intro content
    exact pairwise_sortByDesc _ _
  · with_unfolding_all decide

namespace ContextOptimizer

/-- The regular (non-short) summary used by the summarize loop. -/
def regSummary (s : Str) : Str := summarizeSection s false

/-- The very short summary attempted at the first miss. -/
def shortSummary (s : Str) : Str := summarizeSection s true

/-- Token estimate of the regular summary of a section. -/
def regTokens (s : Str) : Nat := estimateTokenCount (regSummary s)

/-- Append the regular summaries of the given sections to `r` in order. -/
def joinSummaries (r : Str) (l : List Str) : Str :=
  (l.map regSummary).foldl jsAppendSep r

theorem summarizeGo_spec (l : List Str) (maxT : Nat) :
    ∀ (cur : Nat) (r : Str), cur ≤ maxT →
      ∃ k, k ≤ l.length ∧
        cur + ((l.take k).map regTokens).sum ≤ maxT ∧
        ((l.drop k = [] ∧
            summarizeGo l maxT cur r = joinSummaries r (l.take k))
         ∨ (∃ s rest, l.drop k = s :: rest ∧
             cur + ((l.take k).map regTokens).sum + regTokens s > maxT ∧
             summarizeGo l maxT cur r =
               (if cur + ((l.take k).map regTokens).sum
                   + estimateTokenCount (shortSummary s) ≤ maxT then
                  jsAppendSep (joinSummaries r (l.take k)) (shortSummary s)
                else joinSummaries r (l.take k)))) := by
  induction l with
  | nil =>
    intro cur r hcur
    refine ⟨0, by simp, by simpa using hcur, Or.inl ?_⟩
    simp [summarizeGo, joinSummaries]
  | cons s rest ih =>
    intro cur r hcur
    by_cases hfit : cur + regTokens s > maxT
    · refine ⟨0, by simp, by simpa using hcur,
        Or.inr ⟨s, rest, rfl, by simpa using hfit, ?_⟩⟩
      rw [summarizeGo]
      rw [if_pos (by simpa [regTokens, regSummary] using hfit)]
      simp [joinSummaries, shortSummary, regTokens, regSummary]
    · have hnext : cur + regTokens s ≤ maxT := by omega
      obtain ⟨k, hk, hsum, hres⟩ :=
        ih (cur + regTokens s) (jsAppendSep r (regSummary s)) hnext
      have htake : ((s :: rest).take (k + 1)).map regTokens =
          regTokens s :: (rest.take k).map regTokens := by
        simp [List.take_cons]
      refine ⟨k + 1, by simpa using hk, ?_, ?_⟩
      · rw [htake]
        simp only [List.sum_cons]
        omega
      · have hgo : summarizeGo (s :: rest) maxT cur r =
            summarizeGo rest maxT (cur + regTokens s) (jsAppendSep r (regSummary s)) := by
          rw [summarizeGo]
          rw [if_neg (by simpa [regTokens, regSummary] using hfit)]
          rfl
        have hjoin : ∀ m : Nat, joinSummaries r ((s :: rest).take (m + 1)) =
            joinSummaries (jsAppendSep r (regSummary s)) (rest.take m) := by
          intro m
          simp [joinSummaries, List.take_cons]
        rcases hres with ⟨hdrop, heq⟩ | ⟨s', rest', hdrop, hgt, heq⟩
        · left
          refine ⟨by simpa [List.drop_succ_cons] using hdrop, ?_⟩
          rw [hgo, heq, hjoin]
        · right
          refine ⟨s', rest', by simpa [List.drop_succ_cons] using hdrop, ?_, ?_⟩
          · rw [htake]
            simp only [List.sum_cons]
            omega
          · rw [hgo, heq, hjoin, htake]
            simp only [List.sum_cons]
            have harith : cur + regTokens s + (List.sum ((rest.take k).map regTokens))
                = cur + (regTokens s + List.sum ((rest.take k).map regTokens)) := by omega
            rw [harith]

end ContextOptimizer

/-- C7 amended: the summarize optimization sorts the sections by descending
importance and then greedily appends the regular summary
(`summarizeSection(section)`) — not the full section — of each ranked
section while those summaries fit; at the first ranked section whose regular
summary does not fit it attempts the very short summary, appends it only if
it fits, and stops without attempting further sections. -/
theorem summarize_greedy_over_summaries (content : Str) (maxT : Nat) :
    (ContextOptimizer.prioritizeSections
        (ContextOptimizer.splitIntoSections content)).Pairwise
      (fun a b => ContextOptimizer.calculateSectionImportance b ≤
        ContextOptimizer.calculateSectionImportance a)
    ∧ ∃ k, k ≤ (ContextOptimizer.prioritizeSections
        (ContextOptimizer.splitIntoSections content)).length ∧
      (((ContextOptimizer.prioritizeSections
          (ContextOptimizer.splitIntoSections content)).take k).map
        ContextOptimizer.regTokens).sum ≤ maxT ∧
      (((ContextOptimizer.prioritizeSections
            (ContextOptimizer.splitIntoSections content)).drop k = [] ∧
          ContextOptimizer.summarizeContent content maxT =
            ContextOptimizer.joinSummaries []
              ((ContextOptimizer.prioritizeSections
                (ContextOptimizer.splitIntoSections content)).take k))
       ∨ (∃ s rest,
           (ContextOptimizer.prioritizeSections
             (ContextOptimizer.splitIntoSections content)).drop k = s :: rest ∧
           (((ContextOptimizer.prioritizeSections
               (ContextOptimizer.splitIntoSections content)).take k).map
             ContextOptimizer.regTokens).sum + ContextOptimizer.regTokens s > maxT ∧
           ContextOptimizer.summarizeContent content maxT =
             (if (((ContextOptimizer.prioritizeSections
                    (ContextOptimizer.splitIntoSections content)).take k).map
                  ContextOptimizer.regTokens).sum
                 + ContextOptimizer.estimateTokenCount
                     (ContextOptimizer.shortSummary s) ≤ maxT then
                ContextOptimizer.jsAppendSep
                  (ContextOptimizer.joinSummaries []
                    ((ContextOptimizer.prioritizeSections
                      (ContextOptimizer.splitIntoSections content)).take k))
                  (ContextOptimizer.shortSummary s)
              else ContextOptimizer.joinSummaries []
                ((ContextOptimizer.prioritizeSections
                  (ContextOptimizer.splitIntoSections content)).take k)))) := by
  constructor
  · exact pairwise_sortByDesc _ _
  · obtain ⟨k, hk, hsum, hres⟩ :=
      ContextOptimizer.summarizeGo_spec
        (ContextOptimizer.prioritizeSections
          (ContextOptimizer.splitIntoSections content)) maxT 0 []
        (Nat.zero_le maxT)
    exact ⟨k, hk, by simpa using hsum, by simpa using hres⟩

/-- The C7 counterexample input: a single four-line section. -/
def c7Input : Str := str "a\nb\nc\nd"

set_option maxRecDepth 100000 in
/-- C7 counterexample: the input is a single section whose full text fits the
budget, yet `summarizeContent` returns only its three-line regular summary,
so the claim that full sections are appended while they fit is false. -/
theorem summarize_drops_fitting_full_section :
    ContextOptimizer.splitIntoSections c7Input = [c7Input]
    ∧ ContextOptimizer.estimateTokenCount c7Input ≤ 8000
    ∧ ContextOptimizer.summarizeContent c7Input 8000 = str "a\nb\nc"
    ∧ str "a\nb\nc" ≠ c7Input := by
  refine ⟨?_, ?_, ?_, ?_⟩ <;> with_unfolding_all decide

/-- The C8 failing input: two header sections of two lines each. -/
def c8Input : Str := str "# A\na\n# B\nb"

set_option maxRecDepth 100000 in
/-- C8: with chunk size 4 the input splits into two chunks of 2 lines each;
the first chunk's permitted overlap is `min 5 ⌊2·0.1⌋ = 0` lines, yet the
JavaScript `slice(-0)` returns the whole array, so the entire first chunk is
prepended to the second chunk (whose token count is then recomputed from the
combined text). -/
theorem chunk_overlap_prepends_whole_chunk :
    (ContextOptimizer.chunkContext c8Input (some 4)).map
        ContextOptimizer.ContextChunk.content =
      [str "# A\na", str "# A\na\n\n# B\nb"]
    ∧ (ContextOptimizer.chunkContext c8Input (some 4)).map
        ContextOptimizer.ContextChunk.tokenCount = [3, 6]
    ∧ min 5 ((splitOnNl (str "# A\na")).length / 10) = 0 := by
  refine ⟨?_, ?_, ?_⟩ <;> with_unfolding_all decide

set_option maxRecDepth 100000 in
/-- C10: `getTokenInfo` on empty content has `totalTokens = 0` and every
percentage of the breakdown is `(0 / 0) * 100`, i.e. NaN (modelled `none`):
the division is not guarded. -/
theorem getTokenInfo_zero_total_divides :
    ContextOptimizer.getTokenInfo (str "") =
      ⟨0, none, none, none, none, none, 0, true⟩ := by
  with_unfolding_all decide

/-- The C2 failing input: a file system whose root holds a 16-character
`README.md` (fast estimate 4 tokens). -/
def c2FS : FS :=
  ⟨[(str "/r/README.md", str "0123456789abcdef")],
   [(str "/r", [str "README.md"])],
   [(str "/r/README.md", ⟨16, 0, false, true⟩)]⟩

/-- The C2 analyzer result: no entry points, config files or docs dirs. -/
def c2PI : Progressive.ProjectInfo := ⟨[], ⟨[], []⟩⟩

/-- Default loading options (everything unset). -/
def defaultOpts : LoadingOptions := ⟨none, none, none, none, none, none⟩

set_option maxRecDepth 200000 in
/-- C2: the progressive strategy loads `README.md` in its core stage and
again in its documentation stage; the file map keeps a single entry whose
estimate sums to 4, but `totalTokens` is 8 — the invariant that
`totalTokens` equals the sum of the per-file estimates of the returned map
fails. -/
theorem progressive_totalTokens_double_counts :
    (Progressive.loadContext c2FS 0 c2PI (str "/r") defaultOpts).totalTokens = 8
    ∧ (Progressive.loadContext c2FS 0 c2PI (str "/r") defaultOpts).files =
        [(str "README.md", str "0123456789abcdef")]
    ∧ sumEstimates
        (Progressive.loadContext c2FS 0 c2PI (str "/r") defaultOpts).files = 4 := by
  refine ⟨?_, ?_, ?_⟩ <;> with_unfolding_all decide

/-- The focused scoring criteria built internally by `scoreFilesByFocus` for
root `/r` with include pattern `*.ts` (C4 witness input). -/
def focusedIdxCriteria : RelevanceScorer.ScoringCriteria :=
  ⟨none, some (str "/r"), none, some [str "*.ts"], none, some 30,
   some Focused.focusedWeights⟩

/-- The boosted relevance record delivered for `index.ts` (C4 witness). -/
def c4File : RelevanceScorer.FileRelevance :=
  Focused.applyBoost [str "*.ts"]
    (RelevanceScorer.scoreFile emptyFS 0 focusedIdxCriteria (str "index.ts"))

set_option maxRecDepth 400000 in
/-- C4 witness -/
theorem scorer_clamped_focused_boost_nonneg_witness :
    (0 ≤ (RelevanceScorer.scoreFile emptyFS 0 witCriteria (str "a.ts")).score ∧
      (RelevanceScorer.scoreFile emptyFS 0 witCriteria (str "a.ts")).score ≤ 100)
    ∧ 0 ≤ c4File.score :=
  ⟨scorer_clamped_focused_boost_nonneg.1 emptyFS 0 [str "a.ts"] witCriteria
      (RelevanceScorer.scoreFile emptyFS 0 witCriteria (str "a.ts"))
      (by with_unfolding_all decide),
   scorer_clamped_focused_boost_nonneg.2 emptyFS 0 [str "index.ts"] (str "/r")
      patOnlyOpts c4File (by with_unfolding_all decide)⟩

theorem sumEstimates_nil : sumEstimates [] = 0 := rfl

theorem sumEstimates_cons (k v : Str) (m : List (Str × Str)) :
    sumEstimates ((k, v) :: m) = estimateTokens v + sumEstimates m := by
  simp [sumEstimates]

theorem sumEstimates_mapSet (m : List (Str × Str)) (k v : Str) :
    sumEstimates (mapSet m k v) ≤ sumEstimates m + estimateTokens v := by
  induction m with
  | nil => simp [mapSet, sumEstimates]
  | cons e rest ih =>
    obtain ⟨a, b⟩ := e
    rw [mapSet]
    by_cases hk : a = k
    · rw [if_pos hk, sumEstimates_cons, sumEstimates_cons]
      omega
    · rw [if_neg hk, sumEstimates_cons, sumEstimates_cons]
      omega

theorem mergeStage_totalTokens (stage : List (Str × Str)) :
    ∀ (files : List (Str × Str)) (tot : Nat),
      (mergeStage files tot stage).2 = tot + sumEstimates stage := by
  induction stage with
  | nil => intro files tot; simp [mergeStage, sumEstimates]
  | cons e rest ih =>
    intro files tot
    rw [mergeStage, List.foldl_cons]
    have := ih (mapSet files e.1 e.2) (tot + estimateTokens e.2)
    rw [mergeStage] at this
    rw [this, sumEstimates_cons]
    omega

namespace Focused

theorem loadGo_le (fs : FS) (root : Str) (maxT : Nat) :
    ∀ (l : List RelevanceScorer.FileRelevance) (files : List (Str × Str))
      (tot : Nat), tot ≤ maxT → (loadGo fs root maxT l files tot).2 ≤ maxT := by
  intro l
  induction l with
  | nil => intro files tot h; exact h
  | cons f rest ih =>
    intro files tot h
    rw [loadGo]
    by_cases hb : tot ≥ maxT
    · rw [if_pos hb]; exact h
    · rw [if_neg hb]
      cases hr : fs.readFile (pathJoin root f.path) with
      | none => exact ih files tot h
      | some content =>
        simp only
        by_cases hfit : tot + estimateTokens content ≤ maxT
        · rw [if_pos hfit]
          exact ih _ _ hfit
        · rw [if_neg hfit]
          exact ih files tot h

end Focused

namespace BreadthFirst

theorem lfalEntries_inv (fs : FS) (opts : LoadingOptions) (root dir : Str)
    (budget : Nat) :
    ∀ (entries : List Str) (m : List (Str × Str)) (used : Nat),
      sumEstimates m ≤ used → used ≤ budget →
      sumEstimates (lfalEntries fs opts root dir budget entries m used).1 ≤
          (lfalEntries fs opts root dir budget entries m used).2 ∧
        (lfalEntries fs opts root dir budget entries m used).2 ≤ budget := by
  intro entries
  induction entries with
  | nil => intro m used h1 h2; exact ⟨h1, h2⟩
  | cons entry rest ih =>
    intro m used h1 h2
    rw [lfalEntries]
    by_cases hb : used ≥ budget
    · rw [if_pos hb]; exact ⟨h1, h2⟩
    · rw [if_neg hb]
      by_cases hex : shouldExclude entry opts
      · simp only [if_pos hex]
        exact ih m used h1 h2
      · simp only [if_neg hex]
        cases hf : fs.isFileP (pathJoin dir entry) with
        | none => exact ih m used h1 h2
        | some isF =>
          simp only
          by_cases hinc : isF && shouldIncludeFile entry opts
          · simp only [if_pos hinc]
            cases hr : fs.readFile (pathJoin dir entry) with
            | none => exact ih m used h1 h2
            | some content =>
              simp only
              by_cases hfit : used + estimateTokens content ≤ budget
              · rw [if_pos hfit]
                refine ih _ _ ?_ hfit
                calc sumEstimates (mapSet m
                      (pathRelative root (pathJoin dir entry)) content)
                    ≤ sumEstimates m + estimateTokens content :=
                      sumEstimates_mapSet _ _ _
                  _ ≤ used + estimateTokens content := by omega
              · rw [if_neg hfit]
                exact ih m used h1 h2
          · simp only [if_neg hinc]
            exact ih m used h1 h2

theorem lfalDirs_inv (fs : FS) (opts : LoadingOptions) (root : Str)
    (budget : Nat) :
    ∀ (dirs : List Str) (m : List (Str × Str)) (used : Nat) (res),
      sumEstimates m ≤ used → used ≤ budget →
      lfalDirs fs opts root budget dirs m used = .ok res →
      sumEstimates res.1 ≤ res.2 ∧ res.2 ≤ budget := by
  intro dirs
  induction dirs with
  | nil =>
    intro m used res h1 h2 hok
    rw [lfalDirs] at hok
    cases hok
    exact ⟨h1, h2⟩
  | cons dir rest ih =>
    intro m used res h1 h2 hok
    rw [lfalDirs] at hok
    by_cases hb : used ≥ budget
    · rw [if_pos hb] at hok
      cases hok
      exact ⟨h1, h2⟩
    · rw [if_neg hb] at hok
      cases hl : fs.listDir dir with
      | none => rw [hl] at hok; cases hok
      | some entries =>
        rw [hl] at hok
        simp only at hok
        have hinv := lfalEntries_inv fs opts root dir budget
          (sortEntries entries) m used h1 h2
        exact ih _ _ res hinv.1 hinv.2 hok

theorem loadFilesAtLevel_inv (fs : FS) (opts : LoadingOptions) (root : Str)
    (targetLevel budget : Nat) (res : List (Str × Str) × Nat)
    (hok : loadFilesAtLevel fs opts root targetLevel budget = .ok res) :
    sumEstimates res.1 ≤ budget := by
  have h := lfalDirs_inv fs opts root budget
    (getDirectoriesAtLevel fs root targetLevel) [] 0 res (by simp [sumEstimates])
    (Nat.zero_le budget) hok
  omega

theorem levelsGo_le (fs : FS) (opts : LoadingOptions) (root : Str)
    (maxTokens : Nat) :
    ∀ (levels : List Nat) (m : List (Str × Str)) (tot : Nat) (res),
      tot ≤ maxTokens →
      levelsGo fs opts root maxTokens levels m tot = .ok res →
      res.2 ≤ maxTokens := by
  intro levels
  induction levels with
  | nil =>
    intro m tot res h hok
    rw [levelsGo] at hok
    cases hok
    exact h
  | cons level rest ih =>
    intro m tot res h hok
    rw [levelsGo] at hok
    by_cases hb : tot ≥ maxTokens
    · rw [if_pos hb] at hok
      cases hok
      exact h
    · rw [if_neg hb] at hok
      cases hl : loadFilesAtLevel fs opts root level (maxTokens - tot) with
      | error e => rw [hl] at hok; cases hok
      | ok lf =>
        rw [hl] at hok
        simp only at hok
        refine ih _ _ res ?_ hok
        have h1 : sumEstimates lf.1 ≤ maxTokens - tot :=
          loadFilesAtLevel_inv fs opts root level (maxTokens - tot) lf hl
        have h2 := mergeStage_totalTokens lf.1 m tot
        omega

/-- Budget bound for the breadth-first strategy. -/
theorem bfLoadContext_totalTokens_le (fs : FS) (rootPath : Str)
    (opts : LoadingOptions) (ctx : LoadedContext)
    (hok : loadContext fs rootPath opts = .ok ctx) :
    ctx.totalTokens ≤ jsOrNat opts.maxTokens 8000 := by
  rw [loadContext] at hok
  cases hl : levelsGo fs opts rootPath (jsOrNat opts.maxTokens 8000)
      (List.range (jsOrNat opts.maxDepth 5 + 1)) [] 0 with
  | error e => rw [hl] at hok; cases hok
  | ok r =>
    rw [hl] at hok
    cases hok
    exact levelsGo_le fs opts rootPath _ _ [] 0 r (Nat.zero_le _) hl

end BreadthFirst

namespace Progressive

theorem admitHard_le :
    ∀ (l : List (Str × Str)) (maxT : Nat) (files : List (Str × Str)) (tot : Nat),
      tot ≤ maxT → (admitHard l maxT files tot).2 ≤ maxT := by
  intro l
  induction l with
  | nil => intro maxT files tot h; exact h
  | cons e rest ih =>
    intro maxT files tot h
    obtain ⟨p, c⟩ := e
    rw [admitHard]
    by_cases hfit : tot + estimateTokens c > maxT
    · rw [if_pos hfit]; exact h
    · rw [if_neg hfit]
      exact ih maxT _ _ (by omega)

theorem lrfGo_inv (fs : FS) (root : Str) (budget : Nat) :
    ∀ (l : List RelevanceScorer.FileRelevance) (m : List (Str × Str)) (used : Nat),
      sumEstimates m ≤ used → used ≤ budget →
      sumEstimates (lrfGo fs root budget l m used).1 ≤
          (lrfGo fs root budget l m used).2 ∧
        (lrfGo fs root budget l m used).2 ≤ budget := by
  intro l
  induction l with
  | nil => intro m used h1 h2; exact ⟨h1, h2⟩
  | cons f rest ih =>
    intro m used h1 h2
    rw [lrfGo]
    by_cases hb : used ≥ budget
    · rw [if_pos hb]; exact ⟨h1, h2⟩
    · rw [if_neg hb]
      cases hr : fs.readFile (pathJoin root f.path) with
      | none => exact ih m used h1 h2
      | some content =>
        simp only
        by_cases hfit : used + estimateTokens content ≤ budget
        · rw [if_pos hfit]
          refine ih _ _ ?_ hfit
          calc sumEstimates (mapSet m f.path content)
              ≤ sumEstimates m + estimateTokens content :=
                sumEstimates_mapSet _ _ _
            _ ≤ used + estimateTokens content := by omega
        · rw [if_neg hfit]
          exact ih m used h1 h2

theorem loadRelevantFiles_le (fs : FS) (now : Int) (root : Str) (query : Str)
    (budget : Nat) (existing : List (Str × Str)) :
    sumEstimates (loadRelevantFiles fs now root query budget existing) ≤ budget := by
  have h := fun l => lrfGo_inv fs root budget l [] 0 (by simp [sumEstimates])
    (Nat.zero_le budget)
  rw [loadRelevantFiles]
  exact le_trans (h _).1 (h _).2

theorem loadDocMain_inv (fs : FS) (root : Str) (budget : Nat) :
    ∀ (docs : List Str) (m : List (Str × Str)) (used : Nat),
      sumEstimates m ≤ used → used ≤ budget →
      sumEstimates (loadDocMain fs root budget docs m used).1 ≤
          (loadDocMain fs root budget docs m used).2 ∧
        (loadDocMain fs root budget docs m used).2 ≤ budget := by
  intro docs
  induction docs with
  | nil => intro m used h1 h2; exact ⟨h1, h2⟩
  | cons docFile rest ih =>
    intro m used h1 h2
    rw [loadDocMain]
    by_cases hb : used ≥ budget
    · rw [if_pos hb]; exact ⟨h1, h2⟩
    · rw [if_neg hb]
      by_cases hex : fs.pathExists (pathJoin root docFile)
      · simp only [if_pos hex]
        cases hr : fs.readFile (pathJoin root docFile) with
        | none => exact ih m used h1 h2
        | some content =>
          simp only
          by_cases hfit : used + estimateTokens content ≤ budget
          · rw [if_pos hfit]
            refine ih _ _ ?_ hfit
            calc sumEstimates (mapSet m docFile content)
                ≤ sumEstimates m + estimateTokens content :=
                  sumEstimates_mapSet _ _ _
              _ ≤ used + estimateTokens content := by omega
          · rw [if_neg hfit]
            exact ih m used h1 h2
      · simp only [if_neg hex]
        exact ih m used h1 h2

theorem loadDocDirFiles_inv (fs : FS) (root : Str) (budget : Nat) :
    ∀ (docs : List Str) (m : List (Str × Str)) (used : Nat),
      sumEstimates m ≤ used → used ≤ budget →
      sumEstimates (loadDocDirFiles fs root budget docs m used).1 ≤
          (loadDocDirFiles fs root budget docs m used).2 ∧
        (loadDocDirFiles fs root budget docs m used).2 ≤ budget := by
  intro docs
  induction docs with
  | nil => intro m used h1 h2; exact ⟨h1, h2⟩
  | cons docFile rest ih =>
    intro m used h1 h2
    rw [loadDocDirFiles]
    by_cases hb : used ≥ budget
    · rw [if_pos hb]; exact ⟨h1, h2⟩
    · rw [if_neg hb]
      cases hr : fs.readFile docFile with
      | none => exact ⟨h1, h2⟩
      | some content =>
        simp only
        by_cases hfit : used + estimateTokens content ≤ budget
        · rw [if_pos hfit]
          refine ih _ _ ?_ hfit
          calc sumEstimates (mapSet m (pathRelative root docFile) content)
              ≤ sumEstimates m + estimateTokens content :=
                sumEstimates_mapSet _ _ _
            _ ≤ used + estimateTokens content := by omega
        · rw [if_neg hfit]
          exact ih m used h1 h2

theorem loadDocDirs_inv (fs : FS) (root : Str) (budget : Nat) :
    ∀ (dirs : List Str) (m : List (Str × Str)) (used : Nat),
      sumEstimates m ≤ used → used ≤ budget →
      sumEstimates (loadDocDirs fs root budget dirs m used).1 ≤
          (loadDocDirs fs root budget dirs m used).2 ∧
        (loadDocDirs fs root budget dirs m used).2 ≤ budget := by
  intro dirs
  induction dirs with
  | nil => intro m used h1 h2; exact ⟨h1, h2⟩
  | cons docsDir rest ih =>
    intro m used h1 h2
    rw [loadDocDirs]
    by_cases hb : used ≥ budget
    · rw [if_pos hb]; exact ⟨h1, h2⟩
    · rw [if_neg hb]
      simp only
      have hnext := loadDocDirFiles_inv fs root budget
        ((findDocumentationFiles fs (pathJoin root docsDir)).take 5) m used h1 h2
      exact ih _ _ hnext.1 hnext.2

theorem loadDocumentation_le (fs : FS) (root : Str) (docsDirs : List Str)
    (budget : Nat) :
    sumEstimates (loadDocumentation fs root docsDirs budget) ≤ budget := by
  rw [loadDocumentation]
  have h1 := loadDocMain_inv fs root budget mainDocs [] 0 (by simp [sumEstimates])
    (Nat.zero_le budget)
  have h2 := loadDocDirs_inv fs root budget docsDirs _ _ h1.1 h1.2
  exact le_trans h2.1 h2.2

theorem stage2_le (fs : FS) (pi : ProjectInfo) (rootPath : Str) (maxT : Nat) :
    (stage2 fs pi rootPath maxT).2 ≤ maxT :=
  admitHard_le _ maxT [] 0 (Nat.zero_le maxT)

theorem stage3_le (fs : FS) (pi : ProjectInfo) (rootPath : Str) (maxT : Nat)
    (st : List (Str × Str) × Nat) (h : st.2 ≤ maxT) :
    (stage3 fs pi rootPath maxT st).2 ≤ maxT := by
  rw [stage3]
  by_cases hc : (st.2 : ℚ) < (maxT : ℚ) * (4 / 5)
  · rw [if_pos hc]
    exact admitHard_le _ maxT st.1 st.2 h
  · rw [if_neg hc]
    exact h

theorem stage4_le (fs : FS) (now : Int) (rootPath : Str)
    (opts : LoadingOptions) (maxT : Nat) (st : List (Str × Str) × Nat)
    (h : st.2 ≤ maxT) : (stage4 fs now rootPath opts maxT st).2 ≤ maxT := by
  rw [stage4]
  cases opts.query with
  | none => exact h
  | some q =>
    simp only
    by_cases hc : (jsTruthyStr (some q) &&
        decide ((st.2 : ℚ) < (maxT : ℚ) * (9 / 10))) = true
    · rw [if_pos hc, mergeStage_totalTokens]
      have := loadRelevantFiles_le fs now rootPath q (maxT - st.2) st.1
      omega
    · rw [if_neg hc]
      exact h

theorem stage5_le (fs : FS) (pi : ProjectInfo) (rootPath : Str) (maxT : Nat)
    (st : List (Str × Str) × Nat) (h : st.2 ≤ maxT) :
    (stage5 fs pi rootPath maxT st).2 ≤ maxT := by
  rw [stage5]
  by_cases hc : (st.2 : ℚ) < (maxT : ℚ) * (19 / 20)
  · rw [if_pos hc, mergeStage_totalTokens]
    have := loadDocumentation_le fs rootPath pi.struct.docsDirs (maxT - st.2)
    omega
  · rw [if_neg hc]
    exact h

/-- Budget bound for the progressive strategy. -/
theorem progLoadContext_totalTokens_le (fs : FS) (now : Int) (pi : ProjectInfo)
    (rootPath : Str) (opts : LoadingOptions) :
    (loadContext fs now pi rootPath opts).totalTokens ≤
      jsOrNat opts.maxTokens 8000 := by
  exact stage5_le fs pi rootPath _ _
    (stage4_le fs now rootPath opts _ _
      (stage3_le fs pi rootPath _ _ (stage2_le fs pi rootPath _)))

end Progressive

/-- C1: for every file system, project-analysis result, root and options,
each of the three loading strategies returns (when it returns at all) a
`LoadedContext` whose `totalTokens` does not exceed the budget
`options.maxTokens || 8000`: every admission loop checks the candidate's
estimate against the remaining budget before including it. -/
theorem strategies_never_exceed_budget (fs : FS) (now : Int)
    (pi : Progressive.ProjectInfo) (root : Str) (opts : LoadingOptions) :
    (∀ ctx, Focused.loadContext fs now root opts = .ok ctx →
        ctx.totalTokens ≤ jsOrNat opts.maxTokens 8000)
    ∧ (Progressive.loadContext fs now pi root opts).totalTokens ≤
        jsOrNat opts.maxTokens 8000
    ∧ (∀ ctx, BreadthFirst.loadContext fs root opts = .ok ctx →
        ctx.totalTokens ≤ jsOrNat opts.maxTokens 8000) := by
  refine ⟨?_, Progressive.progLoadContext_totalTokens_le fs now pi root opts,
    fun ctx h => BreadthFirst.bfLoadContext_totalTokens_le fs root opts ctx h⟩
  intro ctx hok
  rw [Focused.loadContext] at hok
  by_cases hg : (!jsTruthyStr opts.query && !jsLenTruthy opts.includePatterns) = true
  · rw [if_pos hg] at hok
    cases hok
  · rw [if_neg hg] at hok
    simp only at hok
    cases hok
    exact Focused.loadGo_le fs root _ _ [] 0 (Nat.zero_le _)

/-- Options with only a query (C1 witness input for the focused run). -/
def queryOpts : LoadingOptions := ⟨none, none, none, none, none, some (str "q")⟩

set_option maxRecDepth 200000 in
/-- C1 witness -/
theorem strategies_never_exceed_budget_witness :
    (⟨[], 0, str "focused"⟩ : LoadedContext).totalTokens ≤
        jsOrNat queryOpts.maxTokens 8000
    ∧ (Progressive.loadContext c2FS 0 c2PI (str "/r") defaultOpts).totalTokens ≤
        jsOrNat defaultOpts.maxTokens 8000
    ∧ (⟨[(str "README.md", str "0123456789abcdef")], 4, str "breadth-first"⟩ :
        LoadedContext).totalTokens ≤ jsOrNat defaultOpts.maxTokens 8000 :=
  ⟨(strategies_never_exceed_budget emptyFS 0 c2PI (str "/r") queryOpts).1 _
      (by with_unfolding_all rfl),
   (strategies_never_exceed_budget c2FS 0 c2PI (str "/r") defaultOpts).2.1,
   (strategies_never_exceed_budget c2FS 0 c2PI (str "/r") defaultOpts).2.2 _
      (by with_unfolding_all rfl)⟩

namespace ContextOptimizer

/-- Three consecutive newline characters occur somewhere in the text. -/
def hasTripleNl : Str → Bool
  | a :: b :: c :: rest =>
    (a = '\n' && b = '\n' && c = '\n') || hasTripleNl (b :: c :: rest)
  | _ => false

/-- Two adjacent space/tab characters occur somewhere in the text
(a run of multiple spaces). -/
def hasSpaceRun : Str → Bool
  | a :: b :: rest => (isSpTab a && isSpTab b) || hasSpaceRun (b :: rest)
  | _ => false

theorem hasTripleNl_short (l : Str) (h : l.length < 3) : hasTripleNl l = false := by
  match l with
  | [] => rfl
  | [_] => rfl
  | [_, _] => rfl
  | _ :: _ :: _ :: _ => simp at h; omega

theorem hasTripleNl_tail (a : Char) (l : Str) (h : hasTripleNl l = true) :
    hasTripleNl (a :: l) = true := by
  match l with
  | [] => simp [hasTripleNl] at h
  | [_] => simp [hasTripleNl] at h
  | b :: c :: rest =>
    rw [hasTripleNl]
    rw [h]
    simp

theorem triple_cons_of_ne (a : Char) (l : Str) (h : a ≠ '\n') :
    hasTripleNl (a :: l) = hasTripleNl l := by
  match l with
  | [] => rfl
  | [_] => rfl
  | b :: c :: rest =>
    rw [hasTripleNl]
    simp [h]

theorem triple_nl_cons_of_ne (b : Char) (l : Str) (h : b ≠ '\n') :
    hasTripleNl ('\n' :: b :: l) = hasTripleNl (b :: l) := by
  match l with
  | [] => rfl
  | c :: rest =>
    rw [hasTripleNl]
    simp [h]

theorem hasSpaceRun_tail (a : Char) (l : Str) (h : hasSpaceRun l = true) :
    hasSpaceRun (a :: l) = true := by
  match l with
  | [] => simp [hasSpaceRun] at h
  | b :: rest =>
    rw [hasSpaceRun, h]
    simp

theorem spaceRun_cons_of_not (a : Char) (l : Str)
    (h : (match l with | b :: _ => isSpTab a && isSpTab b | [] => false) = false) :
    hasSpaceRun (a :: l) = hasSpaceRun l := by
  match l with
  | [] => rfl
  | b :: rest =>
    rw [hasSpaceRun]
    simp only at h
    rw [h]
    simp

theorem hasSpaceRun_append_right (x y : Str) (h : hasSpaceRun y = true) :
    hasSpaceRun (x ++ y) = true := by
  induction x with
  | nil => simpa using h
  | cons a x' ih => exact hasSpaceRun_tail a _ ih

/-- `leadNl s` is the length of the leading newline run. -/
def leadNl (s : Str) : Nat := (s.takeWhile (· = '\n')).length

theorem emitNl_length (n : Nat) : (emitNl n).length = min n 2 := by
  simp [emitNl]

theorem cnGo_length_le : ∀ (s : Str) (n : Nat), (cnGo n s).length ≤ n + s.length := by
  intro s
  induction s with
  | nil =>
    intro n
    rw [cnGo, emitNl_length]
    simp
  | cons c rest ih =>
    intro n
    rw [cnGo]
    by_cases hc : c = '\n'
    · rw [if_pos hc]
      have := ih (n + 1)
      simpa [Nat.add_comm, Nat.add_assoc, Nat.add_left_comm] using this
    · rw [if_neg hc]
      simp only [List.length_append, List.length_cons, emitNl_length]
      have := ih 0
      simp at this
      omega

theorem cnGo_length_lt : ∀ (s : Str) (n : Nat),
    (3 ≤ n + leadNl s ∨ hasTripleNl s = true) →
    (cnGo n s).length < n + s.length := by
  intro s
  induction s with
  | nil =>
    intro n h
    rcases h with h | h
    · rw [cnGo, emitNl_length]
      simp [leadNl] at h
      simp
      omega
    · simp [hasTripleNl] at h
  | cons c rest ih =>
    intro n h
    rw [cnGo]
    by_cases hc : c = '\n'
    · rw [if_pos hc]
      have hlead : leadNl (c :: rest) = leadNl rest + 1 := by
        simp [leadNl, List.takeWhile, hc]
      have htrip : hasTripleNl (c :: rest) = true → 3 ≤ n + 1 + leadNl rest ∨
          hasTripleNl rest = true := by
        intro ht
        match rest with
        | [] => simp [hasTripleNl, hc] at ht
        | [b] => simp [hasTripleNl, hc] at ht
        | b :: d :: r =>
          rw [hasTripleNl] at ht
          simp only [Bool.or_eq_true, Bool.and_eq_true, decide_eq_true_eq] at ht
          rcases ht with ⟨⟨_, hb⟩, hd⟩ | htail
          · left
            simp [leadNl, List.takeWhile, hb, hd]
            omega
          · right
            exact htail
      have hnext : 3 ≤ (n + 1) + leadNl rest ∨ hasTripleNl rest = true := by
        rcases h with h | h
        · left; rw [hlead] at h; omega
        · rcases htrip h with h' | h'
          · left; omega
          · right; exact h'
      have := ih (n + 1) hnext
      simp only [List.length_cons]
      omega
    · rw [if_neg hc]
      have hlead0 : leadNl (c :: rest) = 0 := by
        simp [leadNl, List.takeWhile, hc]
      have hnext : 3 ≤ n ∨ hasTripleNl rest = true := by
        rcases h with h | h
        · left; rw [hlead0] at h; omega
        · right; rwa [triple_cons_of_ne c rest hc] at h
      simp only [List.length_append, List.length_cons, emitNl_length]
      rcases hnext with h3 | htr
      · have := cnGo_length_le rest 0
        simp at this
        omega
      · have := ih 0 (Or.inr htr)
        simp at this
        omega

end ContextOptimizer

namespace ContextOptimizer

theorem emitNl_cases (n : Nat) :
    emitNl n = [] ∨ emitNl n = ['\n'] ∨ emitNl n = ['\n', '\n'] := by
  match n with
  | 0 => left; rfl
  | 1 => right; left; rfl
  | m + 2 => right; right; simp [emitNl]

theorem cnGo_noTriple : ∀ (s : Str) (n : Nat), hasTripleNl (cnGo n s) = false := by
  intro s
  induction s with
  | nil =>
    intro n
    rw [cnGo]
    rcases emitNl_cases n with h | h | h <;> rw [h] <;> rfl
  | cons c rest ih =>
    intro n
    rw [cnGo]
    by_cases hc : c = '\n'
    · rw [if_pos hc]
      exact ih (n + 1)
    · rw [if_neg hc]
      have htail : hasTripleNl (c :: cnGo 0 rest) = false := by
        rw [triple_cons_of_ne c _ hc]
        exact ih 0
      rcases emitNl_cases n with h | h | h <;> rw [h]
      · simpa using htail
      · show hasTripleNl ('\n' :: c :: cnGo 0 rest) = false
        rw [triple_nl_cons_of_ne c _ hc]
        exact htail
      · show hasTripleNl ('\n' :: '\n' :: c :: cnGo 0 rest) = false
        have h2 : hasTripleNl ('\n' :: c :: cnGo 0 rest) = false := by
          rw [triple_nl_cons_of_ne c _ hc]
          exact htail
        match hr : cnGo 0 rest with
        | [] => simp [hasTripleNl, hc]
        | d :: r =>
          rw [hasTripleNl]
          rw [hr] at h2
          rw [triple_nl_cons_of_ne c _ hc] at h2
          have : hasTripleNl ('\n' :: c :: d :: r) = false := by
            rw [triple_nl_cons_of_ne c _ hc]
            exact h2
          rw [this]
          simp [hc]

theorem cnGo_spaceRun : ∀ (s : Str) (n : Nat), hasSpaceRun s = true →
    hasSpaceRun (cnGo n s) = true := by
  intro s
  induction s with
  | nil => intro n h; simp [hasSpaceRun] at h
  | cons c rest ih =>
    intro n h
    rw [cnGo]
    by_cases hc : c = '\n'
    · rw [if_pos hc]
      apply ih
      match rest, h with
      | b :: r, h =>
        rw [hasSpaceRun] at h
        rcases Bool.or_eq_true_iff.mp h with hpat | htail
        · exfalso
          have : isSpTab c = true := (Bool.and_eq_true_iff.mp hpat).1
          rw [hc] at this
          simp [isSpTab] at this
        · exact htail
    · rw [if_neg hc]
      apply hasSpaceRun_append_right
      match rest, h with
      | b :: r, h =>
        rw [hasSpaceRun] at h
        rcases Bool.or_eq_true_iff.mp h with hpat | htail
        · have hb : isSpTab b = true := (Bool.and_eq_true_iff.mp hpat).2
          have hbn : b ≠ '\n' := by
            intro hbe
            rw [hbe] at hb
            simp [isSpTab] at hb
          rw [cnGo, if_neg hbn]
          show hasSpaceRun (c :: b :: cnGo 0 r) = true
          rw [hasSpaceRun, hpat]
          simp
        · have := ih 0 htail
          exact hasSpaceRun_tail c _ this

/-- The head character is a space or tab. -/
def headSp : Str → Bool
  | a :: _ => isSpTab a
  | [] => false

theorem spaceRun_cons_of_left (c : Char) (y : Str) (h : isSpTab c = false) :
    hasSpaceRun (c :: y) = hasSpaceRun y := by
  match y with
  | [] => rfl
  | b :: r =>
    rw [hasSpaceRun, h]
    simp

theorem spaceRun_cons_of_right (a b : Char) (y : Str) (h : isSpTab b = false) :
    hasSpaceRun (a :: b :: y) = hasSpaceRun (b :: y) := by
  rw [hasSpaceRun, h]
  simp

theorem dropWhile_head_not (p : Char → Bool) :
    ∀ (l : Str) (d : Char) (r : Str), l.dropWhile p = d :: r → p d = false := by
  intro l
  induction l with
  | nil => intro d r h; simp at h
  | cons c rest ih =>
    intro d r h
    by_cases hc : p c
    · rw [List.dropWhile_cons_of_pos hc] at h
      exact ih d r h
    · rw [List.dropWhile_cons_of_neg hc] at h
      cases h
      simpa using hc

theorem triple_append_right (x y : Str) (h : hasTripleNl y = true) :
    hasTripleNl (x ++ y) = true := by
  induction x with
  | nil => simpa using h
  | cons a x' ih => exact hasTripleNl_tail a _ ih

theorem triple_tail_false (a : Char) (l : Str)
    (h : hasTripleNl (a :: l) = false) : hasTripleNl l = false := by
  by_contra hc
  rw [hasTripleNl_tail a l (by simpa using Bool.of_not_eq_false hc)] at h
  cases h

theorem triple_dropWhile_false (p : Char → Bool) (l : Str)
    (h : hasTripleNl l = false) : hasTripleNl (l.dropWhile p) = false := by
  induction l with
  | nil => simpa using h
  | cons c rest ih =>
    by_cases hc : p c
    · rw [List.dropWhile_cons_of_pos hc]
      exact ih (triple_tail_false c rest h)
    · rw [List.dropWhile_cons_of_neg hc]
      exact h

theorem csGo_length_le : ∀ (s : Str) (b : Bool), (csGo b s).length ≤ s.length := by
  intro s
  induction s with
  | nil => intro b; simp [csGo]
  | cons c rest ih =>
    intro b
    rw [csGo]
    by_cases hsp : isSpTab c
    · rw [if_pos hsp]
      by_cases hb : b
      · rw [if_pos hb]
        have := ih true
        simp
        omega
      · rw [if_neg hb]
        have := ih true
        simpa using this
    · rw [if_neg hsp]
      have := ih false
      simpa using this

theorem csGo_length_lt : ∀ (s : Str) (b : Bool),
    (hasSpaceRun s = true ∨ (b = true ∧ headSp s = true)) →
    (csGo b s).length < s.length := by
  intro s
  induction s with
  | nil =>
    intro b h
    rcases h with h | ⟨_, h⟩
    · simp [hasSpaceRun] at h
    · simp [headSp] at h
  | cons c rest ih =>
    intro b h
    rw [csGo]
    by_cases hsp : isSpTab c
    · rw [if_pos hsp]
      by_cases hb : b
      · rw [if_pos hb]
        have := csGo_length_le rest true
        simp
        omega
      · rw [if_neg hb]
        simp only [List.length_cons]
        have hnext : hasSpaceRun rest = true ∨ (true = true ∧ headSp rest = true) := by
          rcases h with h | ⟨hbb, _⟩
          · match rest, h with
            | d :: r, h =>
              rw [hasSpaceRun] at h
              rcases Bool.or_eq_true_iff.mp h with hpat | htail
              · right
                exact ⟨rfl, by
                  rw [headSp]
                  exact (Bool.and_eq_true_iff.mp hpat).2⟩
              · left; exact htail
          · exact absurd hbb hb
        have := ih true hnext
        omega
    · rw [if_neg hsp]
      simp only [List.length_cons]
      have hnext : hasSpaceRun rest = true := by
        rcases h with h | ⟨_, hhead⟩
        · match rest, h with
          | d :: r, h =>
            rw [hasSpaceRun] at h
            rcases Bool.or_eq_true_iff.mp h with hpat | htail
            · exact absurd (Bool.and_eq_true_iff.mp hpat).1 (by simpa using hsp)
            · exact htail
        · rw [headSp] at hhead
          exact absurd hhead (by simpa using hsp)
      have := ih false (Or.inl hnext)
      omega

theorem csGo_true_eq : ∀ (s : Str), csGo true s = csGo false (s.dropWhile isSpTab) := by
  intro s
  induction s with
  | nil => rfl
  | cons c rest ih =>
    rw [csGo]
    by_cases hsp : isSpTab c
    · rw [if_pos hsp, if_pos rfl, List.dropWhile_cons_of_pos hsp]
      exact ih
    · rw [if_neg hsp, List.dropWhile_cons_of_neg hsp]
      rw [csGo]
      rw [if_neg hsp]

theorem csGo_false_noSpaceRun : ∀ (n : Nat) (s : Str), s.length ≤ n →
    hasSpaceRun (csGo false s) = false := by
  intro n
  induction n with
  | zero =>
    intro s h
    match s with
    | [] => rfl
  | succ m ih =>
    intro s h
    match s with
    | [] => rfl
    | c :: rest =>
      have hrest : rest.length ≤ m := by simpa using h
      rw [csGo]
      by_cases hsp : isSpTab c
      · rw [if_pos hsp, if_neg (by simp)]
        rw [csGo_true_eq]
        have hdwlen : (rest.dropWhile isSpTab).length ≤ m :=
          le_trans (List.IsSuffix.length_le (List.dropWhile_suffix _)) hrest
        match hdw : rest.dropWhile isSpTab with
        | [] => rfl
        | d :: r =>
          have hd : isSpTab d = false := dropWhile_head_not isSpTab rest d r hdw
          rw [csGo, if_neg (by simp [hd])]
          rw [spaceRun_cons_of_right ' ' d _ hd]
          rw [spaceRun_cons_of_left d _ hd]
          have hrlen : r.length ≤ m := by
            rw [hdw] at hdwlen
            simp at hdwlen
            omega
          exact ih r hrlen
      · rw [if_neg hsp]
        rw [spaceRun_cons_of_left c _ (by simpa using hsp)]
        exact ih rest hrest

theorem csGo_noSpaceRun (s : Str) (b : Bool) : hasSpaceRun (csGo b s) = false := by
  cases b with
  | false => exact csGo_false_noSpaceRun s.length s le_rfl
  | true =>
    rw [csGo_true_eq]
    exact csGo_false_noSpaceRun _ _ (List.IsSuffix.length_le (List.dropWhile_suffix _))

theorem triple_cons3 (a b c : Char) (t : Str) :
    hasTripleNl (a :: b :: c :: t) =
      ((a = '\n' && b = '\n' && c = '\n') || hasTripleNl (b :: c :: t)) := rfl

theorem csGo_false_noTriple : ∀ (n : Nat) (s : Str), s.length ≤ n →
    hasTripleNl s = false → hasTripleNl (csGo false s) = false := by
  intro n
  induction n with
  | zero =>
    intro s h _
    match s with
    | [] => rfl
  | succ m ih =>
    intro s h hs
    match s with
    | [] => rfl
    | c :: rest =>
      have hrest : rest.length ≤ m := by simpa using h
      have hrestT : hasTripleNl rest = false := triple_tail_false c rest hs
      rw [csGo]
      by_cases hsp : isSpTab c
      · rw [if_pos hsp, if_neg (by simp)]
        have hspc : ' ' ≠ '\n' := by decide
        rw [triple_cons_of_ne ' ' _ hspc]
        rw [csGo_true_eq]
        exact ih _ (le_trans (List.IsSuffix.length_le (List.dropWhile_suffix _)) hrest)
          (triple_dropWhile_false _ _ hrestT)
      · rw [if_neg hsp]
        by_cases hcn : c = '\n'
        · subst hcn
          match rest, hrest, hrestT, hs with
          | [], _, _, _ => rfl
          | d :: r, hrest, hrestT, hs =>
            have hrlen : r.length ≤ m := by simp at hrest; omega
            have hrT : hasTripleNl r = false := triple_tail_false d r hrestT
            rw [csGo]
            by_cases hspd : isSpTab d
            · rw [if_pos hspd, if_neg (by simp)]
              have hspd' : ' ' ≠ '\n' := by decide
              rw [triple_nl_cons_of_ne ' ' _ hspd']
              rw [triple_cons_of_ne ' ' _ hspd']
              rw [csGo_true_eq]
              exact ih _ (le_trans (List.IsSuffix.length_le (List.dropWhile_suffix _))
                  hrlen)
                (triple_dropWhile_false _ _ hrT)
            · rw [if_neg hspd]
              by_cases hdn : d = '\n'
              · subst hdn
                match r, hrlen, hrT, hs with
                | [], _, _, _ =>
                  rw [csGo]
                  rfl
                | e :: r2, hrlen, hrT, hs =>
                  have hr2len : r2.length ≤ m := by simp at hrlen; omega
                  have hr2T : hasTripleNl r2 = false := triple_tail_false e r2 hrT
                  have hen : e ≠ '\n' := by
                    intro he
                    subst he
                    rw [triple_cons3] at hs
                    simp at hs
                  rw [csGo]
                  by_cases hspe : isSpTab e
                  · rw [if_pos hspe, if_neg (by simp)]
                    have hspe' : (' ' : Char) ≠ '\n' := by decide
                    rw [triple_cons3]
                    have h1 : hasTripleNl ('\n' :: ' ' :: csGo true r2) = false := by
                      rw [triple_nl_cons_of_ne ' ' _ hspe']
                      rw [triple_cons_of_ne ' ' _ hspe']
                      rw [csGo_true_eq]
                      exact ih _ (le_trans
                        (List.IsSuffix.length_le (List.dropWhile_suffix _)) hr2len)
                        (triple_dropWhile_false _ _ hr2T)
                    rw [h1]
                    simp
                  · rw [if_neg hspe]
                    rw [triple_cons3]
                    have h1 : hasTripleNl ('\n' :: e :: csGo false r2) = false := by
                      rw [triple_nl_cons_of_ne e _ hen]
                      rw [triple_cons_of_ne e _ hen]
                      exact ih r2 hr2len hr2T
                    rw [h1]
                    simp [hen]
              · rw [triple_nl_cons_of_ne d _ hdn]
                rw [triple_cons_of_ne d _ hdn]
                exact ih r hrlen hrT
        · rw [triple_cons_of_ne c _ hcn]
          exact ih rest hrest hrestT

theorem csGo_noTriple (s : Str) (b : Bool) (h : hasTripleNl s = false) :
    hasTripleNl (csGo b s) = false := by
  cases b with
  | false => exact csGo_false_noTriple s.length s le_rfl h
  | true =>
    rw [csGo_true_eq]
    exact csGo_false_noTriple _ _ (List.IsSuffix.length_le (List.dropWhile_suffix _))
      (triple_dropWhile_false _ _ h)

theorem splitOnNl_ne_nil (s : Str) : splitOnNl s ≠ [] := by
  match s with
  | [] => simp [splitOnNl]
  | c :: rest =>
    rw [splitOnNl]
    match h : splitOnNl rest with
    | [] => simp
    | l :: ls => by_cases hc : c = '\n' <;> simp [hc]

theorem splitOnNl_cons_eq (c : Char) (rest : Str) (l : Str) (ls : List Str)
    (h : splitOnNl rest = l :: ls) :
    splitOnNl (c :: rest) = if c = '\n' then [] :: l :: ls else (c :: l) :: ls := by
  rw [splitOnNl, h]

theorem joinNl_splitOnNl (s : Str) : joinNl (splitOnNl s) = s := by
  induction s with
  | nil => rfl
  | cons c rest ih =>
    match h : splitOnNl rest with
    | [] => exact absurd h (splitOnNl_ne_nil rest)
    | l :: ls =>
      rw [splitOnNl_cons_eq c rest l ls h]
      rw [h] at ih
      by_cases hc : c = '\n'
      · rw [if_pos hc]
        subst hc
        show '\n' :: joinNl (l :: ls) = '\n' :: rest
        rw [ih]
      · rw [if_neg hc]
        match ls with
        | [] =>
          show c :: l = c :: rest
          rw [show joinNl [l] = l from rfl] at ih
          rw [ih]
        | l2 :: ls2 =>
          show (c :: l) ++ '\n' :: joinNl (l2 :: ls2) = c :: rest
          have : l ++ '\n' :: joinNl (l2 :: ls2) = rest := ih
          simpa using this

theorem mem_splitOnNl_no_nl (s : Str) : ∀ l ∈ splitOnNl s, '\n' ∉ l := by
  induction s with
  | nil =>
    intro l hl
    simp [splitOnNl] at hl
    simp [hl]
  | cons c rest ih =>
    intro l hl
    match h : splitOnNl rest with
    | [] => exact absurd h (splitOnNl_ne_nil rest)
    | l1 :: ls =>
      rw [splitOnNl_cons_eq c rest l1 ls h] at hl
      rw [h] at ih
      by_cases hc : c = '\n'
      · rw [if_pos hc] at hl
        rcases List.mem_cons.mp hl with rfl | hl'
        · simp
        · exact ih l hl'
      · rw [if_neg hc] at hl
        rcases List.mem_cons.mp hl with rfl | hl'
        · intro hmem
          rcases List.mem_cons.mp hmem with rfl | hmem'
          · exact hc rfl
          · exact ih l1 (List.mem_cons_self l1 ls) hmem'
        · exact ih l (List.mem_cons.mpr (Or.inr hl'))

theorem joinNl_cons_length (x : Str) (xs : List Str) :
    (joinNl (x :: xs)).length =
      x.length + (if xs.isEmpty then 0 else 1 + (joinNl xs).length) := by
  match xs with
  | [] => simp [joinNl]
  | y :: ys =>
    show (x ++ '\n' :: joinNl (y :: ys)).length = _
    simp
    omega

theorem joinNl_length_le_cons (x : Str) (xs : List Str) :
    (joinNl xs).length ≤ (joinNl (x :: xs)).length := by
  rw [joinNl_cons_length]
  match xs with
  | [] => simp [joinNl]
  | y :: ys =>
    simp only [List.isEmpty_cons, if_neg Bool.false_ne_true]
    omega

theorem joinNl_length_of_sublist : ∀ (l₁ l₂ : List Str), List.Sublist l₁ l₂ →
    (joinNl l₁).length ≤ (joinNl l₂).length := by
  intro l₁ l₂ h
  induction h with
  | slnil => simp
  | cons x h ih => exact le_trans ih (joinNl_length_le_cons x _)
  | cons₂ x h ih =>
    rename_i l₁ l₂
    rw [joinNl_cons_length, joinNl_cons_length]
    cases l₁ with
    | nil =>
      cases l₂ with
      | nil => simp
      | cons b bs =>
        simp only [List.isEmpty_nil, List.isEmpty_cons, if_neg Bool.false_ne_true,
          eq_self_iff_true, if_true]
        omega
    | cons a as =>
      cases l₂ with
      | nil => exact absurd (List.sublist_nil.mp h) (by simp)
      | cons b bs =>
        simp only [List.isEmpty_cons, if_neg Bool.false_ne_true]
        omega

theorem dedupKeepFirst_sublist : ∀ (seen ls : List Str),
    List.Sublist (dedupKeepFirst seen ls) ls := by
  intro seen ls
  induction ls generalizing seen with
  | nil => simp [dedupKeepFirst]
  | cons l ls ih =>
    rw [dedupKeepFirst]
    by_cases h : seen.contains l = true
    · rw [if_pos h]
      exact List.Sublist.cons l (ih seen)
    · rw [if_neg h]
      exact List.Sublist.cons₂ l (ih (l :: seen))

theorem mem_dedupKeepFirst : ∀ (seen ls : List Str) (x : Str),
    x ∈ dedupKeepFirst seen ls ↔ x ∈ ls ∧ x ∉ seen := by
  intro seen ls
  induction ls generalizing seen with
  | nil => intro x; simp [dedupKeepFirst]
  | cons l ls ih =>
    intro x
    rw [dedupKeepFirst]
    by_cases h : seen.contains l = true
    · rw [if_pos h]
      have hl : l ∈ seen := by simpa using h
      rw [ih seen x]
      constructor
      · rintro ⟨hm, hn⟩
        exact ⟨List.mem_cons_of_mem _ hm, hn⟩
      · rintro ⟨hm, hn⟩
        rcases List.mem_cons.mp hm with rfl | hm'
        · exact absurd hl hn
        · exact ⟨hm', hn⟩
    · rw [if_neg h]
      have hl : l ∉ seen := by simpa using h
      simp only [List.mem_cons, ih (l :: seen) x]
      constructor
      · rintro (rfl | ⟨hm, hn⟩)
        · exact ⟨Or.inl rfl, hl⟩
        · exact ⟨Or.inr hm, fun hs => hn (Or.inr hs)⟩
      · rintro ⟨hm, hn⟩
        by_cases hx : x = l
        · exact Or.inl hx
        · rcases hm with rfl | hm'
          · exact Or.inl rfl
          · exact Or.inr ⟨hm', fun hs => hs.elim hx hn⟩

theorem dedupKeepFirst_nodup : ∀ (seen ls : List Str),
    (dedupKeepFirst seen ls).Nodup := by
  intro seen ls
  induction ls generalizing seen with
  | nil => simp [dedupKeepFirst]
  | cons l ls ih =>
    rw [dedupKeepFirst]
    by_cases h : seen.contains l = true
    · rw [if_pos h]; exact ih seen
    · rw [if_neg h]
      refine List.nodup_cons.mpr ⟨?_, ih (l :: seen)⟩
      intro hmem
      exact ((mem_dedupKeepFirst (l :: seen) ls l).mp hmem).2 (List.mem_cons_self l seen)

theorem noTriple_of_no_nl (s : Str) (h : '\n' ∉ s) : hasTripleNl s = false := by
  induction s with
  | nil => rfl
  | cons a rest ih =>
    have ha : a ≠ '\n' := fun e => h (e ▸ List.mem_cons_self a rest)
    rw [triple_cons_of_ne a rest ha]
    exact ih (fun hm => h (List.mem_cons_of_mem a hm))

/-- The text does not begin with two newline characters. -/
def leadLe1 : Str → Bool
  | a :: b :: _ => !(a = '\n' && b = '\n')
  | _ => true

theorem nl_cons_noTriple (t : Str) (h1 : hasTripleNl t = false)
    (h2 : leadLe1 t = true) : hasTripleNl ('\n' :: t) = false := by
  match t with
  | [] => rfl
  | [_] => rfl
  | c :: d :: t' =>
    have h3 : (decide (c = '\n') && decide (d = '\n')) = false := by
      cases hcd : (decide (c = '\n') && decide (d = '\n'))
      · rfl
      · simp [leadLe1, hcd] at h2
    rw [hasTripleNl, h1, Bool.or_false]
    simp [Bool.and_assoc, h3]

theorem noTriple_append_nl (x t : Str) (hx : '\n' ∉ x)
    (h : hasTripleNl ('\n' :: t) = false) :
    hasTripleNl (x ++ '\n' :: t) = false := by
  induction x with
  | nil => simpa using h
  | cons a x' ih =>
    have ha : a ≠ '\n' := fun e => hx (e ▸ List.mem_cons_self a x')
    rw [List.cons_append, triple_cons_of_ne a _ ha]
    exact ih (fun hm => hx (List.mem_cons_of_mem a hm))

theorem joinNl_noTriple_aux : ∀ (ls : List Str),
    (∀ l ∈ ls, '\n' ∉ l) → List.Chain' (fun a b : Str => a ≠ b) ls →
    hasTripleNl (joinNl ls) = false ∧ leadLe1 (joinNl ls) = true := by
  intro ls
  induction ls with
  | nil => intro _ _; exact ⟨rfl, rfl⟩
  | cons x rest ih =>
    intro hnl hch
    cases rest with
    | nil =>
      have hx : '\n' ∉ x := hnl x (List.mem_cons_self x [])
      refine ⟨noTriple_of_no_nl x hx, ?_⟩
      match x, hx with
      | [], _ => rfl
      | [_], _ => rfl
      | a :: b :: r, hx =>
        have ha : a ≠ '\n' := fun e => hx (e ▸ List.mem_cons_self a _)
        show leadLe1 (a :: b :: r) = true
        simp [leadLe1, ha]
    | cons y ys =>
      have hrest : ∀ l ∈ y :: ys, '\n' ∉ l :=
        fun l hl => hnl l (List.mem_cons_of_mem x hl)
      obtain ⟨iht, ihl⟩ := ih hrest hch.tail
      have hxy : x ≠ y := (List.chain'_cons.mp hch).1
      have hx : '\n' ∉ x := hnl x (List.mem_cons_self x _)
      show hasTripleNl (x ++ '\n' :: joinNl (y :: ys)) = false ∧
        leadLe1 (x ++ '\n' :: joinNl (y :: ys)) = true
      constructor
      · exact noTriple_append_nl x _ hx (nl_cons_noTriple _ iht ihl)
      · cases x with
        | nil =>
          cases y with
          | nil => exact absurd rfl hxy
          | cons c y' =>
            have hc : c ≠ '\n' := fun e =>
              hrest (c :: y') (List.mem_cons_self _ _) (e ▸ List.mem_cons_self c y')
            cases ys with
            | nil =>
              show leadLe1 ('\n' :: c :: y') = true
              simp [leadLe1, hc]
            | cons z zs =>
              show leadLe1 ('\n' :: c :: (y' ++ '\n' :: joinNl (z :: zs))) = true
              simp [leadLe1, hc]
        | cons a x' =>
          have ha : a ≠ '\n' := fun e => hx (e ▸ List.mem_cons_self a x')
          cases x' with
          | nil =>
            show leadLe1 (a :: '\n' :: joinNl (y :: ys)) = true
            simp [leadLe1, ha]
          | cons b x'' =>
            show leadLe1 (a :: b :: (x'' ++ '\n' :: joinNl (y :: ys))) = true
            simp [leadLe1, ha]

theorem joinNl_noTriple (ls : List Str) (hnl : ∀ l ∈ ls, '\n' ∉ l)
    (hd : ls.Nodup) : hasTripleNl (joinNl ls) = false :=
  (joinNl_noTriple_aux ls hnl hd.chain').1

theorem spaceRun_append_nl (x t : Str) (hx : hasSpaceRun x = false)
    (ht : hasSpaceRun t = false) : hasSpaceRun (x ++ '\n' :: t) = false := by
  induction x with
  | nil =>
    simp only [List.nil_append]
    rw [spaceRun_cons_of_left '\n' t (by decide)]
    exact ht
  | cons a x' ih =>
    have hx' : hasSpaceRun x' = false := by
      cases hh : hasSpaceRun x'
      · rfl
      · rw [hasSpaceRun_tail a x' hh] at hx; simp at hx
    have hpair : (match x' ++ '\n' :: t with
        | b :: _ => isSpTab a && isSpTab b | [] => false) = false := by
      cases x' with
      | nil =>
        simp only [List.nil_append]
        show (isSpTab a && isSpTab '\n') = false
        simp [isSpTab]
      | cons b x'' =>
        simp only [List.cons_append]
        show (isSpTab a && isSpTab b) = false
        rw [hasSpaceRun] at hx
        exact (Bool.or_eq_false_iff.mp hx).1
    rw [List.cons_append, spaceRun_cons_of_not a _ hpair]
    exact ih hx'

theorem joinNl_noSpaceRun : ∀ (ls : List Str),
    (∀ l ∈ ls, hasSpaceRun l = false) → hasSpaceRun (joinNl ls) = false := by
  intro ls
  induction ls with
  | nil => intro _; rfl
  | cons x rest ih =>
    intro hmem
    cases rest with
    | nil => exact hmem x (List.mem_cons_self x [])
    | cons y ys =>
      show hasSpaceRun (x ++ '\n' :: joinNl (y :: ys)) = false
      exact spaceRun_append_nl x _ (hmem x (List.mem_cons_self x _))
        (ih fun l hl => hmem l (List.mem_cons_of_mem x hl))

theorem mem_splitOnNl_noSpaceRun (s : Str) (hs : hasSpaceRun s = false) :
    ∀ l ∈ splitOnNl s, hasSpaceRun l = false := by
  induction s with
  | nil =>
    intro l hl
    rw [splitOnNl] at hl
    simp at hl
    subst hl
    rfl
  | cons c rest ih =>
    have hrest : hasSpaceRun rest = false := by
      cases hh : hasSpaceRun rest
      · rfl
      · rw [hasSpaceRun_tail c rest hh] at hs; simp at hs
    intro l hl
    match h : splitOnNl rest with
    | [] => exact absurd h (splitOnNl_ne_nil rest)
    | l1 :: ls =>
      rw [splitOnNl_cons_eq c rest l1 ls h] at hl
      have ih' := ih hrest
      rw [h] at ih'
      by_cases hc : c = '\n'
      · rw [if_pos hc] at hl
        rcases List.mem_cons.mp hl with rfl | hl'
        · rfl
        · exact ih' l hl'
      · rw [if_neg hc] at hl
        rcases List.mem_cons.mp hl with rfl | hl'
        · have h1 : hasSpaceRun l1 = false := ih' l1 (List.mem_cons_self l1 ls)
          cases l1 with
          | nil => rfl
          | cons b r =>
            have hjr := joinNl_splitOnNl rest
            rw [h] at hjr
            obtain ⟨t, hrt⟩ : ∃ t, rest = b :: t := by
              cases ls with
              | nil => exact ⟨r, hjr.symm⟩
              | cons z zs => exact ⟨r ++ '\n' :: joinNl (z :: zs), hjr.symm⟩
            rw [hrt, hasSpaceRun] at hs
            have hpair := (Bool.or_eq_false_iff.mp hs).1
            rw [hasSpaceRun]
            exact Bool.or_eq_false_iff.mpr ⟨hpair, h1⟩
        · exact ih' l (List.mem_cons_of_mem l1 hl')

/-- The first three stages of `compressContent` (newline collapse, space/tab
collapse, duplicate-line removal), before the fence- and comment-truncation
passes. -/
def whitespaceStages (s : Str) : Str :=
  dedupeLines (collapseSpaces (collapseNewlines s))

/-- Input with a run of five newlines (3+ consecutive blank lines). -/
def c9wsInput : Str := str "a\n\n\n\n\nb"

/-- Input with a double space followed by a 21-line fenced code block. -/
def c9Input : Str :=
  str "x  y\n```js\na\nb\nc\nd\ne\nf\ng\nh\ni\nj\nk\nl\nm\nn\no\np\nq\nr\ns\n```"

/-- C9 (amended): on any input containing a triple newline or a space/tab run,
the three whitespace stages of the compress optimization (newline collapse,
space/tab collapse, duplicate-line removal) produce a strictly shorter text
with no triple newline and no space/tab run anywhere, whose line list is
duplicate-free and consists of exactly the lines of the pre-dedup text in
first-occurrence order; the final compress output is the fence- and
comment-truncation passes applied to that text (and those passes can lengthen
it, so the full optimization is not strictly shrinking). -/
theorem compress_whitespace_stages (s : Str)
    (h : hasTripleNl s = true ∨ hasSpaceRun s = true) :
    (whitespaceStages s).length < s.length ∧
    hasTripleNl (whitespaceStages s) = false ∧
    hasSpaceRun (whitespaceStages s) = false ∧
    (dedupKeepFirst [] (splitOnNl (collapseSpaces (collapseNewlines s)))).Nodup ∧
    (∀ l, l ∈ dedupKeepFirst [] (splitOnNl (collapseSpaces (collapseNewlines s))) ↔
      l ∈ splitOnNl (collapseSpaces (collapseNewlines s))) ∧
    compressContent s =
      replaceComments
        (replaceFences (whitespaceStages s).length (whitespaceStages s)).length
        (replaceFences (whitespaceStages s).length (whitespaceStages s)) := by
  have hs2run : hasSpaceRun (collapseSpaces (collapseNewlines s)) = false :=
    csGo_noSpaceRun (collapseNewlines s) false
  have hkl : List.Sublist
      (dedupKeepFirst [] (splitOnNl (collapseSpaces (collapseNewlines s))))
      (splitOnNl (collapseSpaces (collapseNewlines s))) :=
    dedupKeepFirst_sublist [] _
  have hw : whitespaceStages s =
      joinNl (dedupKeepFirst [] (splitOnNl (collapseSpaces (collapseNewlines s)))) := rfl
  refine ⟨?_, ?_, ?_, dedupKeepFirst_nodup [] _, ?_, rfl⟩
  · have hle : (whitespaceStages s).length ≤
        (collapseSpaces (collapseNewlines s)).length := by
      rw [hw]
      have h1 := joinNl_length_of_sublist _ _ hkl
      rw [joinNl_splitOnNl] at h1
      exact h1
    rcases h with h | h
    · have h1 : (collapseNewlines s).length < s.length := by
        have := cnGo_length_lt s 0 (Or.inr h)
        simpa [collapseNewlines] using this
      have h2 : (collapseSpaces (collapseNewlines s)).length ≤
          (collapseNewlines s).length := csGo_length_le (collapseNewlines s) false
      omega
    · have h1 : (collapseNewlines s).length ≤ s.length := by
        have := cnGo_length_le s 0
        simpa [collapseNewlines] using this
      have hrun1 : hasSpaceRun (collapseNewlines s) = true := cnGo_spaceRun s 0 h
      have h2 : (collapseSpaces (collapseNewlines s)).length <
          (collapseNewlines s).length :=
        csGo_length_lt (collapseNewlines s) false (Or.inl hrun1)
      omega
  · rw [hw]
    refine joinNl_noTriple _ (fun l hl => ?_) (dedupKeepFirst_nodup [] _)
    exact mem_splitOnNl_no_nl (collapseSpaces (collapseNewlines s)) l
      ((mem_dedupKeepFirst [] _ l).mp hl).1
  · rw [hw]
    refine joinNl_noSpaceRun _ (fun l hl => ?_)
    exact mem_splitOnNl_noSpaceRun (collapseSpaces (collapseNewlines s)) hs2run l
      ((mem_dedupKeepFirst [] _ l).mp hl).1
  · intro l
    rw [mem_dedupKeepFirst]
    simp

/-- Witness for the amended C9 theorem at a concrete input containing a run of
five newlines. -/
theorem compress_whitespace_stages_witness :
    (hasTripleNl c9wsInput = true ∨ hasSpaceRun c9wsInput = true) ∧
    ((whitespaceStages c9wsInput).length < c9wsInput.length ∧
     hasTripleNl (whitespaceStages c9wsInput) = false ∧
     hasSpaceRun (whitespaceStages c9wsInput) = false ∧
     (dedupKeepFirst [] (splitOnNl (collapseSpaces (collapseNewlines c9wsInput)))).Nodup ∧
     (∀ l, l ∈ dedupKeepFirst []
         (splitOnNl (collapseSpaces (collapseNewlines c9wsInput))) ↔
       l ∈ splitOnNl (collapseSpaces (collapseNewlines c9wsInput))) ∧
     compressContent c9wsInput =
       replaceComments
         (replaceFences (whitespaceStages c9wsInput).length
           (whitespaceStages c9wsInput)).length
         (replaceFences (whitespaceStages c9wsInput).length
           (whitespaceStages c9wsInput))) :=
  ⟨Or.inl (by decide), compress_whitespace_stages c9wsInput (Or.inl (by decide))⟩

set_option maxRecDepth 400000 in
/-- C9 counterexample: a 52-character input containing a space run whose
compress output is 60 characters long - the fence-truncation pass inserts a
truncation-marker line, so the full compress optimization does not always
yield strictly shorter output. -/
theorem compress_can_lengthen :
    hasSpaceRun c9Input = true ∧
    ¬ (compressContent c9Input).length < c9Input.length := by
  constructor
  · with_unfolding_all decide
  · with_unfolding_all decide
